import Mathlib

/-!
Verification development for the `chain-able` traversal engine
(`src/deps/traverse.js`): a heap-based shallow embedding of the
depth-first walker, its per-node traversal state and mutation
operations, the facade operations (`get`, `has`, `map`, `forEach`,
`reduce`, `paths`, `nodes`, `clone`) and the type-aware shallow
`copy`, together with theorems settling the frozen claims about them.

JavaScript values are modelled as scalars plus references (`JSVal.ref`)
into an explicit heap (a list of cells, the address being the index),
so that reference identity (`===`), aliasing, in-place mutation and
cyclic object graphs are all expressible.  Walks over cyclic graphs are
modelled with an explicit fuel parameter; running out of fuel is a
distinguished outcome (`TRes.fuelOut`), and a thrown JS exception is
another (`TRes.thrown`).
-/

/-- A JavaScript value: a scalar (undefined, null, boolean, number,
string) or a reference to a heap cell.  `===` on objects is address
equality; on scalars it is value equality, which `DecidableEq` gives. -/
inductive JSVal where
  | undef
  | null
  | bool (b : Bool)
  | num (n : Int)
  | str (s : String)
  | ref (a : Nat)
  deriving DecidableEq, Repr

/-- A key under which a child sits in its parent: an array index or a
record field name (JS own enumerable property keys). -/
inductive Key where
  | idx (n : Nat)
  | fld (s : String)
  deriving DecidableEq, Repr

/-- A heap cell: one composite JS object.  Records and sequences are
the containers; dates, pattern-matchers, error-like records and boxed
primitives are the "special composite leaf types" of the spec. -/
inductive Cell where
  | record (fields : List (String × JSVal))
  | arr (elems : List JSVal)
  | date (time : Int)
  | regexp (pat : String)
  | errorObj (message : String)
  | boxedBool (b : Bool)
  | boxedNum (n : Int)
  | boxedStr (s : String)
  deriving DecidableEq, Repr

/-- The heap: cell at address `a` is the list entry at index `a`.
Allocation appends, so existing addresses are stable. -/
abbrev Heap := List Cell

/-- Look up the cell at an address. -/
def Heap.cell (h : Heap) (a : Nat) : Option Cell := h[a]?

/-- Replace the cell at an address (in-place object mutation). -/
def Heap.setCell (h : Heap) (a : Nat) (c : Cell) : Heap := h.set a c

/-- Allocate a fresh cell, returning the new heap and the address. -/
def Heap.alloc (h : Heap) (c : Cell) : Heap × Nat := (h ++ [c], h.length)

/-- JS truthiness of a value (`!node` in the source is its negation).
NaN and -0 are outside the model. -/
def truthy : JSVal → Bool
  | .undef => false
  | .null => false
  | .bool b => b
  | .num n => decide (n ≠ 0)
  | .str s => decide (s ≠ "")
  | .ref _ => true

/-- Modelled from the spec: `deps/is/pureObj` is required by
`traverse.js` but is not among the given sources.  Per the spec's data
model (§3, glossary) a composite — the kind of node the walker may
descend into and the copier rebuilds key-by-key — is "a record or
sequence value with enumerable own keys, as opposed to a scalar or
boxed leaf", while dates, pattern-matchers, error-like records and
boxed primitives are leaf types.  So `isPureObj` holds exactly for
references to record or sequence cells. -/
def isPureObj (h : Heap) (v : JSVal) : Bool :=
  match v with
  | .ref a =>
    match h.cell a with
    | some (.record _) => true
    | some (.arr _) => true
    | _ => false
  | _ => false

/-- Modelled from the spec: `deps/is/array` (not among the given
sources); a sequence value. -/
def isArray (h : Heap) (v : JSVal) : Bool :=
  match v with
  | .ref a =>
    match h.cell a with
    | some (.arr _) => true
    | _ => false
  | _ => false

/-- Modelled from the spec: `deps/util/keys` (`objectKeys`, not among
the given sources); the own enumerable keys of a value, in insertion
order; scalars and special leaf cells have none. -/
def objectKeys (h : Heap) (v : JSVal) : List Key :=
  match v with
  | .ref a =>
    match h.cell a with
    | some (.record fs) => fs.map (fun p => Key.fld p.1)
    | some (.arr es) => (List.range es.length).map Key.idx
    | _ => []
  | _ => []

/-- Modelled from the spec: `deps/util/hasOwnProperty` (not among the
given sources); own-property membership, never consulting anything
inherited. -/
def hasOwnProperty (h : Heap) (v : JSVal) (k : Key) : Bool :=
  match v with
  | .ref a =>
    match h.cell a, k with
    | some (.record fs), .fld s => fs.any (fun p => p.1 = s)
    | some (.arr es), .idx i => decide (i < es.length)
    | _, _ => false
  | _ => false

/-- Property read `v[k]`: absent keys and reads on scalars give
`undefined`. -/
def getProp (h : Heap) (v : JSVal) (k : Key) : JSVal :=
  match v with
  | .ref a =>
    match h.cell a, k with
    | some (.record fs), .fld s =>
      match fs.find? (fun p => p.1 = s) with
      | some p => p.2
      | none => .undef
    | some (.arr es), .idx i => es.getD i .undef
    | _, _ => .undef
  | _ => (.undef)

/-- Assign into a record's field list: overwrite in place if the key
exists, else append (JS insertion order). -/
def setFields (fs : List (String × JSVal)) (s : String) (x : JSVal) :
    List (String × JSVal) :=
  if fs.any (fun p => p.1 = s) then
    fs.map (fun p => if p.1 = s then (s, x) else p)
  else fs ++ [(s, x)]

/-- Assign into a sequence at an index, extending with holes
(modelled as `undefined`) when the index is past the end. -/
def setElems (es : List JSVal) (i : Nat) (x : JSVal) : List JSVal :=
  if i < es.length then es.set i x
  else es ++ List.replicate (i - es.length) .undef ++ [x]

/-- Property write `v[k] = x` (no-op on scalars, as no claim exercises
JS's silent primitive-write behavior beyond that). -/
def setProp (h : Heap) (v : JSVal) (k : Key) (x : JSVal) : Heap :=
  match v with
  | .ref a =>
    match h.cell a, k with
    | some (.record fs), .fld s => h.setCell a (.record (setFields fs s x))
    | some (.arr es), .idx i => h.setCell a (.arr (setElems es i x))
    | _, _ => h
  | _ => h

/-- Record-style key deletion `delete v[k]`: drops a record field; on a
sequence it leaves a hole (modelled as `undefined`) without shifting
later indices, as JS `delete` does. -/
def deleteProp (h : Heap) (v : JSVal) (k : Key) : Heap :=
  match v with
  | .ref a =>
    match h.cell a, k with
    | some (.record fs), .fld s =>
      h.setCell a (.record (fs.filter (fun p => ¬ p.1 = s)))
    | some (.arr es), .idx i =>
      h.setCell a (.arr (if i < es.length then es.set i .undef else es))
    | _, _ => h
  | _ => h

/-- Sequence splice of one element, `v.splice(k, 1)`: later siblings
shift down by one index. -/
def spliceOne (h : Heap) (v : JSVal) (k : Key) : Heap :=
  match v with
  | .ref a =>
    match h.cell a, k with
    | some (.arr es), .idx i => h.setCell a (.arr (es.eraseIdx i))
    | _, _ => h
  | _ => h

/-- Embeds `copy` (traverse.js:320–382): type-aware shallow copy of one
composite value; scalars (and, under the spec's leaf classification in
`isPureObj`, the special leaf cells) are returned unchanged.  The
branches mirror the source's `isArray`/`isDate`/`isRegExp`/`isError`/
boxed-primitive/prototype-preserving cases; with the spec-modelled
`isPureObj` gate only the record and sequence branches are reachable. -/
def copyVal (h : Heap) (v : JSVal) : Heap × JSVal :=
  if isPureObj h v then
    match v with
    | .ref a =>
      match h.cell a with
      | some (.arr es) =>
        let r := h.alloc (.arr es); (r.1, .ref r.2)
      | some (.date t) =>
        let r := h.alloc (.date t); (r.1, .ref r.2)
      | some (.regexp p) =>
        let r := h.alloc (.regexp p); (r.1, .ref r.2)
      | some (.errorObj m) =>
        let r := h.alloc (.record [("message", .str m)]); (r.1, .ref r.2)
      | some (.boxedBool b) =>
        let r := h.alloc (.boxedBool b); (r.1, .ref r.2)
      | some (.boxedNum n) =>
        let r := h.alloc (.boxedNum n); (r.1, .ref r.2)
      | some (.boxedStr s) =>
        let r := h.alloc (.boxedStr s); (r.1, .ref r.2)
      | some (.record fs) =>
        let r := h.alloc (.record fs); (r.1, .ref r.2)
      | none => (h, v)
    | _ => (h, v)
  else (h, v)


/-- One entry of the walk-local ancestor stack (`parents` in the
source): the pushed node's current value, its original value, its path
and the key under which it sits in its own parent. -/
structure Frame where
  node : JSVal
  node_ : JSVal
  path : List Key
  key : Option Key
  deriving DecidableEq, Repr

/-- Which of the four per-node hooks fired. -/
inductive HookKind where
  | before
  | after
  | pre
  | post
  deriving DecidableEq, Repr

/-- Observable events of a walk, in order: `enter` marks reaching a
node (before the walk-global alive check), `visit` marks the callback
invocation together with the view it was given, `hookEv` marks a hook
invocation. -/
inductive Ev where
  | enter (path : List Key) (node_ : JSVal)
  | visit (path : List Key) (node : JSVal) (node_ : JSVal)
      (isRoot : Bool) (isLeaf : Bool) (circ : Option (List Key))
  | hookEv (k : HookKind) (path : List Key)
  deriving DecidableEq, Repr

/-- The path recorded on an event. -/
def Ev.vpath : Ev → List Key
  | .enter p _ => p
  | .visit p _ _ _ _ _ => p
  | .hookEv _ p => p

/-- The current node value recorded on a visit event. -/
def Ev.vnode : Ev → JSVal
  | .visit _ n _ _ _ _ => n
  | _ => (.undef)

/-- The root flag recorded on a visit event. -/
def Ev.visRoot : Ev → Bool
  | .visit _ _ _ r _ _ => r
  | _ => false

/-- The circular link recorded on a visit event (the matched strict
ancestor's path, if any). -/
def Ev.vcirc : Ev → Option (List Key)
  | .visit _ _ _ _ _ c => c
  | _ => none

/-- Whether an event is a callback invocation. -/
def Ev.isVisit : Ev → Bool
  | .visit _ _ _ _ _ _ => true
  | _ => false

/-- Whether an event is a node arrival. -/
def Ev.isEnter : Ev → Bool
  | .enter _ _ => true
  | _ => false

/-- Whether an event is a hook invocation. -/
def Ev.isHook : Ev → Bool
  | .hookEv _ _ => true
  | _ => false

/-- Walk-global mutable state: the heap, the walk-local `path` and
`parents` stacks, the walk-scoped alive flag and the event trace. -/
structure WSt where
  heap : Heap
  path : List Key
  parents : List Frame
  alive : Bool
  trace : List Ev
  deriving DecidableEq, Repr

/-- Per-visit mutable locals of one `walker` activation: the state's
current node (reassigned by `update`), the `keepGoing` flag (cleared by
`block` and by the `stopHere` argument of the mutation operations) and
the four optional hook registrations (`modifiers`). -/
structure VCtx where
  node : JSVal
  keepGoing : Bool
  mBefore : Bool
  mAfter : Bool
  mPre : Bool
  mPost : Bool
  deriving DecidableEq, Repr

/-- A control operation the callback may invoke on its state, in the
order invoked (the callback's returned value, applied as an implicit
`update`, is separate). -/
inductive Cmd where
  | update (x : JSVal) (stopHere : Bool)
  | del (stopHere : Bool)
  | remove (stopHere : Bool)
  | stop
  | block
  | before
  | after
  | pre
  | post
  deriving DecidableEq, Repr

/-- The view of its state a callback receives (`this` plus the node
argument): the current and original node values, path, key, root flag,
depth, circular link (as the matched ancestor's path) and leaf flag. -/
structure StateView where
  node : JSVal
  node_ : JSVal
  path : List Key
  key : Option Key
  isRoot : Bool
  level : Nat
  circular : Option (List Key)
  isLeaf : Bool
  deriving DecidableEq, Repr

/-- What one callback invocation does: the control operations it
invokes, in order, and its return value (`none` models returning
`undefined`). -/
structure CbOut where
  cmds : List Cmd
  ret : Option JSVal

/-- A walk callback.  Hook bodies are modelled as pure observers (their
invocations appear on the trace); the callback itself acts through its
`CbOut`. -/
abbrev Callback := StateView → CbOut

/-- Result of a fallible, fuelled computation: a JS exception
(`thrown`) or exhaustion of the modelling fuel (`fuelOut`) abort it. -/
inductive TRes (α : Type) where
  | ok (a : α)
  | thrown (msg : String)
  | fuelOut
  deriving DecidableEq, Repr

/-- Embeds one control operation of the traversal state
(traverse.js:204–246).  `update` writes through to the parent's current
node unless at the root; `del` reads `state.parent.node` without a
root guard, so at the root it throws a TypeError; `remove` is a guarded
no-op at the root (returning before its `stopHere` flag is honored),
splices when the parent's current node is a sequence and deletes by key
otherwise; `stop` clears the walk-global alive flag; `block` clears the
node-local `keepGoing`; the four hook commands register observers. -/
def execCmd (isRoot : Bool) (key : Option Key) (st : WSt) (ctx : VCtx) :
    Cmd → TRes (WSt × VCtx)
  | .update x stopHere =>
    if isRoot then
      .ok (st, { ctx with
        node := x, keepGoing := if stopHere then false else ctx.keepGoing })
    else
      match st.parents.getLast? with
      | none => .thrown "TypeError"
      | some fr =>
        let h :=
          match key with
          | some k => setProp st.heap fr.node k x
          | none => st.heap
        .ok ({ st with heap := h }, { ctx with
          node := x, keepGoing := if stopHere then false else ctx.keepGoing })
  | .del stopHere =>
    match st.parents.getLast? with
    | none => .thrown "TypeError"
    | some fr =>
      let h :=
        match key with
        | some k => deleteProp st.heap fr.node k
        | none => st.heap
      .ok ({ st with heap := h }, { ctx with
        keepGoing := if stopHere then false else ctx.keepGoing })
  | .remove stopHere =>
    match st.parents.getLast? with
    | none => .ok (st, ctx)
    | some fr =>
      let h :=
        if isArray st.heap fr.node then
          match key with
          | some k => spliceOne st.heap fr.node k
          | none => st.heap
        else
          match key with
          | some k => deleteProp st.heap fr.node k
          | none => st.heap
      .ok ({ st with heap := h }, { ctx with
        keepGoing := if stopHere then false else ctx.keepGoing })
  | .stop => .ok ({ st with alive := false }, ctx)
  | .block => .ok (st, { ctx with keepGoing := false })
  | .before => .ok (st, { ctx with mBefore := true })
  | .after => .ok (st, { ctx with mAfter := true })
  | .pre => .ok (st, { ctx with mPre := true })
  | .post => .ok (st, { ctx with mPost := true })

/-- Run the callback's control operations in order. -/
def execCmds (isRoot : Bool) (key : Option Key) :
    WSt → VCtx → List Cmd → TRes (WSt × VCtx)
  | st, ctx, [] => .ok (st, ctx)
  | st, ctx, c :: cs =>
    match execCmd isRoot key st ctx c with
    | .ok (st2, ctx2) => execCmds isRoot key st2 ctx2 cs
    | .thrown m => .thrown m
    | .fuelOut => .fuelOut

/-- The fields `updateState` (traverse.js:251–273) recomputes: the
own-key snapshot, the leaf flag and the circular link. -/
structure USt where
  keys : Option (List Key)
  isLeaf : Bool
  circ : Option Frame
  deriving Repr

/-- Embeds `updateState` (traverse.js:251–273): when the current node
is a composite, (re)capture the own-key snapshot (only when absent or
when the current value differs from the original), derive the leaf flag
from the snapshot, and set the circular link to the first ancestor
whose original value is reference-identical to this node's original
value (the scan never clears an already-set link); otherwise the node
is a leaf with no key snapshot. -/
def calcState (h : Heap) (parents : List Frame) (node node_ : JSVal)
    (prev : USt) : USt :=
  if isPureObj h node then
    let keys :=
      match prev.keys with
      | none => objectKeys h node
      | some ks => if node_ = node then ks else objectKeys h node
    let circ :=
      match prev.circ with
      | some c => some c
      | none => parents.find? (fun fr => fr.node_ == node_)
    { keys := some keys, isLeaf := keys.isEmpty, circ := circ }
  else
    { keys := prev.keys, isLeaf := true, circ := prev.circ }

/-- The children loop of `walker` (traverse.js:294–310), structural in
the key snapshot; `w` is the recursive visit (the walker one fuel draw
down).  Per key: push the key on the path, fire the optional `pre`
hook, visit the child read from the parent's current node, in
copy-on-write mode write the child's resulting value back into the
parent's current node when the parent owns that key, fire the optional
`post` hook and pop the path. -/
def childrenLoop (w : WSt → JSVal → TRes (WSt × JSVal)) (imm : Bool)
    (fr : Frame) (mPre mPost : Bool) :
    WSt → List Key → TRes WSt
  | st, [] => .ok st
  | st, k :: ks =>
    let st1 := { st with path := st.path ++ [k] }
    let st2 :=
      if mPre then { st1 with trace := st1.trace ++ [Ev.hookEv .pre st1.path] }
      else st1
    match w st2 (getProp st2.heap fr.node k) with
    | .ok (st3, childNode) =>
      let st4 :=
        if imm && hasOwnProperty st3.heap fr.node k then
          { st3 with heap := setProp st3.heap fr.node k childNode }
        else st3
      let st5 :=
        if mPost then { st4 with trace := st4.trace ++ [Ev.hookEv .post st4.path] }
        else st4
      childrenLoop w imm fr mPre mPost
        { st5 with path := st5.path.dropLast } ks
    | .thrown m => .thrown m
    | .fuelOut => .fuelOut

/-- The walker's per-node value production (traverse.js:190):
`immutable ? copy(node_) : node_`. -/
def copyIf (imm : Bool) (h : Heap) (v : JSVal) : Heap × JSVal :=
  if imm then copyVal h v else (h, v)

/-- Embeds `walker` (traverse.js:188–317), fuelled (`fuelOut` when the
fuel runs dry, which on a fixed heap can only happen for deeper
recursion than the fuel allows).  Per visited node: in copy-on-write
mode produce the current value via `copyVal`; record arrival; if the
walk-scoped alive flag is down, return at once; compute the key
snapshot, leaf flag and circular link (`calcState`); invoke the
callback and apply its control operations in order, a defined return
value acting as an `update`; fire the optional `before` hook; stop here
if `keepGoing` was cleared; descend into a composite, non-circular
node by pushing a frame, re-running `calcState` and walking every key
of the snapshot; pop the frame and fire the optional `after` hook.
Returns the final walk state and this node's resulting value. -/
def walkerF (imm : Bool) (cb : Callback) :
    Nat → WSt → JSVal → TRes (WSt × JSVal)
  | 0, _, _ => .fuelOut
  | Nat.succ fuel, st0, node_ =>
    let hc := copyIf imm st0.heap node_
    let node0 := hc.2
    let st := { st0 with heap := hc.1,
                         trace := st0.trace ++ [Ev.enter st0.path node_] }
    if st.alive = false then .ok (st, node0)
    else
      let isRoot := st.path.isEmpty
      let key := st.path.getLast?
      let us := calcState st.heap st.parents node0 node_
        { keys := none, isLeaf := true, circ := none }
      let view : StateView :=
        { node := node0, node_ := node_, path := st.path, key := key,
          isRoot := isRoot, level := st.path.length,
          circular := us.circ.map (fun fr => fr.path), isLeaf := us.isLeaf }
      let st := { st with trace := st.trace ++
        [Ev.visit st.path node0 node_ isRoot us.isLeaf
          (us.circ.map (fun fr => fr.path))] }
      let out := cb view
      match execCmds isRoot key st
        { node := node0, keepGoing := true, mBefore := false,
          mAfter := false, mPre := false, mPost := false } out.cmds with
      | .thrown m => .thrown m
      | .fuelOut => .fuelOut
      | .ok (st, ctx) =>
        match (match out.ret with
               | some x => execCmd isRoot key st ctx (.update x false)
               | none => .ok (st, ctx)) with
        | .thrown m => .thrown m
        | .fuelOut => .fuelOut
        | .ok (st, ctx) =>
          let st :=
            if ctx.mBefore then
              { st with trace := st.trace ++ [Ev.hookEv .before st.path] }
            else st
          if ctx.keepGoing = false then .ok (st, ctx.node)
          else
            if isPureObj st.heap ctx.node && us.circ.isNone then
              let fr : Frame :=
                { node := ctx.node, node_ := node_, path := st.path, key := key }
              let st := { st with parents := st.parents ++ [fr] }
              let us2 := calcState st.heap st.parents ctx.node node_ us
              match childrenLoop (walkerF imm cb fuel) imm fr
                ctx.mPre ctx.mPost st (us2.keys.getD []) with
              | .thrown m => .thrown m
              | .fuelOut => .fuelOut
              | .ok st2 =>
                let st3 := { st2 with parents := st2.parents.dropLast }
                let st4 :=
                  if ctx.mAfter then
                    { st3 with trace := st3.trace ++ [Ev.hookEv .after st3.path] }
                  else st3
                .ok (st4, ctx.node)
            else
              let st' :=
                if ctx.mAfter then
                  { st with trace := st.trace ++ [Ev.hookEv .after st.path] }
                else st
              .ok (st', ctx.node)

/-- The initial walk state over a heap: empty path, empty ancestor
stack, alive, empty trace. -/
def initSt (heap : Heap) : WSt :=
  { heap := heap, path := [], parents := [], alive := true, trace := [] }

/-- Embeds `walk` (traverse.js:183–318): run the walker from the root
with fresh walk-local state; the result pairs the final walk state with
the transformed root (`.node` of the top-level state). -/
def walk (fuel : Nat) (heap : Heap) (root : JSVal) (cb : Callback)
    (imm : Bool) : TRes (WSt × JSVal) :=
  walkerF imm cb fuel (initSt heap) root

/-- Embeds the `Traverse` constructor (traverse.js:44–46): the facade
holds exactly one root value. -/
structure Traverse where
  value : JSVal
  deriving DecidableEq, Repr

/-- The loop of `Traverse.prototype.get` (traverse.js:56–63): walk the
path by own-property access, breaking to `undefined` as soon as the
current node is falsy (`!node`) or lacks the key as an own property. -/
def getLoop (h : Heap) : JSVal → List Key → JSVal
  | node, [] => node
  | node, k :: rest =>
    if truthy node && hasOwnProperty h node k then getLoop h (getProp h node k) rest
    else (.undef)

/-- The loop of `Traverse.prototype.has` (traverse.js:74–81): the same
resolution as `get`'s, returning `false` on the same break condition
and `true` when every segment resolves. -/
def hasLoop (h : Heap) : JSVal → List Key → Bool
  | _, [] => true
  | node, k :: rest =>
    if truthy node && hasOwnProperty h node k then hasLoop h (getProp h node k) rest
    else false

/-- Embeds `Traverse.prototype.get` (traverse.js:54–65). -/
def Traverse.get (t : Traverse) (h : Heap) (ps : List Key) : JSVal :=
  getLoop h t.value ps

/-- Embeds `Traverse.prototype.has` (traverse.js:72–82). -/
def Traverse.has (t : Traverse) (h : Heap) (ps : List Key) : Bool :=
  hasLoop h t.value ps

/-- Embeds `Traverse.prototype.map` (traverse.js:101–103): one walk in
copy-on-write mode; the result triple is the final heap, the walk's
returned root, and the facade afterwards — `map` does not reassign the
facade's held value. -/
def Traverse.map (t : Traverse) (h : Heap) (fuel : Nat) (cb : Callback) :
    TRes (Heap × JSVal × Traverse) :=
  match walk fuel h t.value cb true with
  | .ok (st, v) => .ok (st.heap, v, t)
  | .thrown m => .thrown m
  | .fuelOut => .fuelOut

/-- Embeds `Traverse.prototype.forEach` (traverse.js:109–112): one walk
in mutate mode; the facade's held value is reassigned to the walk's
result, which is also returned. -/
def Traverse.forEach (t : Traverse) (h : Heap) (fuel : Nat)
    (cb : Callback) : TRes (Heap × JSVal × Traverse) :=
  match walk fuel h t.value cb false with
  | .ok (st, v) => .ok (st.heap, v, { value := v })
  | .thrown m => .thrown m
  | .fuelOut => .fuelOut

/-- The pure observer callback: no control operations, returns
`undefined`.  `paths`, `nodes` and `reduce` drive their walk with
callbacks whose only effect is accumulation outside the tree, which
this models. -/
def obsCb : Callback := fun _ => { cmds := [], ret := none }

/-- The callback invocations of a walk, in visitation order. -/
def visitsIn (evs : List Ev) : List Ev := evs.filter Ev.isVisit

/-- The node arrivals of a walk. -/
def entersIn (evs : List Ev) : List Ev := evs.filter Ev.isEnter

/-- The hook invocations of a walk. -/
def hooksIn (evs : List Ev) : List Ev := evs.filter Ev.isHook

/-- Embeds `Traverse.prototype.paths` (traverse.js:136–142): one
`forEach` walk accumulating `this.path` at every visit. -/
def Traverse.paths (t : Traverse) (h : Heap) (fuel : Nat) :
    TRes (List (List Key)) :=
  match walk fuel h t.value obsCb false with
  | .ok (st, _) => .ok ((visitsIn st.trace).map Ev.vpath)
  | .thrown m => .thrown m
  | .fuelOut => .fuelOut

/-- Embeds `Traverse.prototype.nodes` (traverse.js:144–150): one
`forEach` walk accumulating `this.node` at every visit. -/
def Traverse.nodes (t : Traverse) (h : Heap) (fuel : Nat) :
    TRes (List JSVal) :=
  match walk fuel h t.value obsCb false with
  | .ok (st, _) => .ok ((visitsIn st.trace).map Ev.vnode)
  | .thrown m => .thrown m
  | .fuelOut => .fuelOut

/-- The per-visit accumulator step of `reduce` (traverse.js:129–131):
the reducer fires unless this is the root visit and `skip` is on
(`skip` meaning no initial value was supplied, so the root seeds the
accumulator instead); guard `!this.isRoot || !skip`. -/
def redStep (cb : JSVal → JSVal → JSVal) (skip : Bool)
    (acc : JSVal) (ev : Ev) : JSVal :=
  if !ev.visRoot || !skip then cb acc ev.vnode else acc

/-- Embeds `Traverse.prototype.reduce` (traverse.js:125–134), its
per-visit step being `redStep` above. -/
def Traverse.reduce (t : Traverse) (h : Heap) (fuel : Nat)
    (cb : JSVal → JSVal → JSVal) (init : Option JSVal) : TRes JSVal :=
  match walk fuel h t.value obsCb false with
  | .ok (st, _) =>
    let skip := init.isNone
    let acc0 := match init with | some i => i | none => t.value
    .ok ((visitsIn st.trace).foldl (redStep cb skip) acc0)
  | .thrown m => .thrown m
  | .fuelOut => .fuelOut

/-- The field-overwriting loop of `clone` (traverse.js:169–171),
structural in the key list; `c` is the recursive clone with the two
ancestor lists already extended: `dst[key] = clone(src[key])` for every
own key, reading `src` from the evolving heap. -/
def cloneKeys (c : Heap → JSVal → TRes (Heap × JSVal)) :
    Heap → JSVal → JSVal → List Key → TRes Heap
  | h, _, _, [] => .ok h
  | h, src, dst, k :: ks =>
    match c h (getProp h src k) with
    | .ok (h2, v) => cloneKeys c (setProp h2 dst k v) src dst ks
    | .thrown m => .thrown m
    | .fuelOut => .fuelOut

/-- Embeds the inner `clone` closure of `Traverse.prototype.clone`
(traverse.js:152–181), fuelled: scan the two parallel ancestor lists
(`parents` of original references, `nodes` of their produced copies)
and return the existing copy when the source recurs; otherwise, for a
composite, take a type-aware shallow copy, push the (original, copy)
pair, deep-clone every own key into the copy, pop and return it;
non-composites are returned unchanged. -/
def cloneGo : Nat → List JSVal → List JSVal → Heap → JSVal →
    TRes (Heap × JSVal)
  | 0, _, _, _, _ => .fuelOut
  | Nat.succ fuel, parents, nodes, h, src =>
    match (parents.zip nodes).find? (fun p => p.1 == src) with
    | some p => .ok (h, p.2)
    | none =>
      if isPureObj h src then
        let hc := copyVal h src
        match cloneKeys (cloneGo fuel (parents ++ [src]) (nodes ++ [hc.2]))
          hc.1 src hc.2 (objectKeys h src) with
        | .ok h2 => .ok (h2, hc.2)
        | .thrown m => .thrown m
        | .fuelOut => .fuelOut
      else .ok (h, src)

/-- Embeds `Traverse.prototype.clone` (traverse.js:152–181): run the
inner clone on the held root with empty ancestor lists. -/
def Traverse.clone (t : Traverse) (h : Heap) (fuel : Nat) :
    TRes (Heap × JSVal) :=
  cloneGo fuel [] [] h t.value

/-! ### Concrete example data used by the claims -/

/-- The self-referential object `o = {}; o.self = o`. -/
def selfHeap : Heap := [Cell.record [("self", .ref 0)]]

/-- The root `{x: <date>, y: 10, z: 5}`; the date lives at address 1. -/
def dateHeap : Heap :=
  [Cell.record [("x", .ref 1), ("y", .num 10), ("z", .num 5)], Cell.date 700]

/-- A callback adding 100 to every number-kind leaf via its return
value. -/
def cb100 : Callback := fun v =>
  match v.node with
  | .num n => { cmds := [], ret := some (.num (n + 100)) }
  | _ => { cmds := [], ret := none }

/-- The heap resulting from `map`ping `cb100` over `dateHeap` (the walk
allocates the copied root at address 2). -/
def dateMapHeap : Heap :=
  [Cell.record [("x", .ref 1), ("y", .num 10), ("z", .num 5)], Cell.date 700,
   Cell.record [("x", .ref 1), ("y", .num 110), ("z", .num 105)]]

/-- The nested root `{a: {b: 1}}` (root at 0, child at 1). -/
def evilHeap : Heap := [Cell.record [("a", .ref 1)], Cell.record [("b", .num 1)]]

/-- A callback that replaces the root's current node with the root's
original reference (`this.update(this.node_)`), re-aiming the walk's
child write-backs at the original object. -/
def cbEvil : Callback := fun v =>
  if v.isRoot then { cmds := [Cmd.update v.node_ false], ret := none }
  else { cmds := [], ret := none }

/-- The three-element sequence `[[1],[2],[3]]` (root at 0, elements at
1, 2, 3 so that element identity is observable). -/
def remHeap : Heap :=
  [Cell.arr [.ref 1, .ref 2, .ref 3], Cell.arr [.num 1], Cell.arr [.num 2],
   Cell.arr [.num 3]]

/-- A callback invoking `remove(true)` on the node at index 1 of the
root sequence. -/
def cbRem : Callback := fun v =>
  if v.path = [Key.idx 1] then { cmds := [Cmd.remove true], ret := none }
  else { cmds := [], ret := none }

/-- A callback invoking `delete` (with `stopHere`) at the root. -/
def cbDelRoot : Callback := fun v =>
  if v.isRoot then { cmds := [Cmd.del true], ret := none }
  else { cmds := [], ret := none }

/-- A callback invoking `remove(true)` at the root. -/
def cbRemRoot : Callback := fun v =>
  if v.isRoot then { cmds := [Cmd.remove true], ret := none }
  else { cmds := [], ret := none }

/-- The root `{a: undefined}`: the key `a` exists as an own property
but holds `undefined`. -/
def undefHeap : Heap := [Cell.record [("a", .undef)]]

/-- The root `{q: 1}`. -/
def qHeap : Heap := [Cell.record [("q", .num 1)]]

/-! ### Path resolution: `get` and `has` -/

/-- When resolution breaks, `get` yields the absent marker. -/
theorem getLoop_of_hasLoop_false (h : Heap) :
    ∀ (ps : List Key) (v : JSVal),
      hasLoop h v ps = false → getLoop h v ps = JSVal.undef
  | [], v => by simp [hasLoop]
  | k :: rest, v => by
    intro hf
    by_cases hc : (truthy v && hasOwnProperty h v k) = true
    · simp only [hasLoop, hc, if_true] at hf
      simp only [getLoop, hc, if_true]
      exact getLoop_of_hasLoop_false h rest _ hf
    · simp [getLoop, hc]

/-- When every segment resolves, `get` is the plain chain of
own-property reads. -/
theorem getLoop_of_hasLoop_true (h : Heap) :
    ∀ (ps : List Key) (v : JSVal),
      hasLoop h v ps = true → getLoop h v ps = ps.foldl (getProp h) v
  | [], v => by simp [hasLoop, getLoop]
  | k :: rest, v => by
    intro ht
    by_cases hc : (truthy v && hasOwnProperty h v k) = true
    · simp only [hasLoop, hc, if_true] at ht
      simp only [getLoop, hc, if_true, List.foldl_cons]
      exact getLoop_of_hasLoop_true h rest _ ht
    · simp [hasLoop, hc] at ht

/-- C5 (corrected).  `get` and `has` resolve a key path by the same
own-property-only loop, breaking at the first missing own key or falsy
intermediate value; `has` is `false` exactly on such a break, and then
`get` returns the absent marker `undefined`; when `has` is `true`,
`get` returns the value reached by plain successive own-property reads
(which may itself be `undefined` for a present key holding
`undefined`, so `get = undefined` does not imply `has = false`); both
are total functions — absence is a value, never an error. -/
theorem C5_get_has (h : Heap) (t : Traverse) (ps : List Key) :
    (t.has h ps = false → t.get h ps = JSVal.undef) ∧
    (t.has h ps = true → t.get h ps = ps.foldl (getProp h) t.value) := by
  constructor
  · exact fun hf => getLoop_of_hasLoop_false h ps t.value hf
  · exact fun ht => getLoop_of_hasLoop_true h ps t.value ht

/-- C5 witness: on `{}` the path `["q"]` breaks (missing own key), so
`has` is false and, by the claim's theorem, `get` is `undefined`. -/
theorem C5_get_has_witness :
    Traverse.get ⟨.ref 0⟩ [Cell.record []] [Key.fld "q"] = JSVal.undef ∧
    Traverse.get ⟨.ref 0⟩ undefHeap [Key.fld "a"] =
      [Key.fld "a"].foldl (getProp undefHeap) (JSVal.ref 0) :=
  ⟨(C5_get_has [Cell.record []] ⟨.ref 0⟩ [Key.fld "q"]).1 (by decide),
   (C5_get_has undefHeap ⟨.ref 0⟩ [Key.fld "a"]).2 (by decide)⟩

/-- C5 counterexample: on `{a: undefined}` with path `["a"]`, `get`
reports the absent marker (`undefined`) yet `has` returns `true`, so
"has returns false exactly when get would report absence" fails as
stated. -/
theorem C5_counterexample :
    ¬ ((Traverse.has ⟨.ref 0⟩ undefHeap [Key.fld "a"] = false) ↔
       (Traverse.get ⟨.ref 0⟩ undefHeap [Key.fld "a"] = JSVal.undef)) := by
  decide

/-! ### `map` on the date example -/

/-- C2 (confirmed, with the `is`-helpers modelled from the spec: dates
are leaves, not containers).  Mapping `+100` over every number-kind
leaf of `{x: <date>, y: 10, z: 5}` returns the new root at address 2 —
distinct from the original root at address 0, which is left unchanged —
whose `x` field is the very same date reference (address 1) as in the
original, and whose `y` and `z` are 110 and 105. -/
theorem C2_date_map :
    Traverse.map ⟨.ref 0⟩ dateHeap 3 cb100 =
      .ok (dateMapHeap, .ref 2, ⟨.ref 0⟩) ∧
    JSVal.ref 2 ≠ JSVal.ref 0 ∧
    getProp dateHeap (.ref 0) (.fld "x") = .ref 1 ∧
    getProp dateMapHeap (.ref 2) (.fld "x") = .ref 1 ∧
    dateHeap.cell 1 = some (.date 700) ∧
    dateMapHeap.cell 1 = some (.date 700) ∧
    getProp dateMapHeap (.ref 2) (.fld "y") = .num 110 ∧
    getProp dateMapHeap (.ref 2) (.fld "z") = .num 105 ∧
    dateMapHeap.cell 0 = dateHeap.cell 0 := by
  refine ⟨rfl, by decide, rfl, rfl, rfl, rfl, rfl, rfl, rfl⟩

/-! ### `clone` and cycles -/

/-- C8 (confirmed).  The clone recursion keeps two parallel ancestor
lists; when the source reference recurs among the originals seen so
far, the corresponding already-produced copy is returned at once (no
recursion, heap untouched).  Consequently for `o = {}; o.self = o`,
`clone` terminates at every sufficient fuel with a copy `o2` at the
fresh address 1 whose `self` field is `o2` itself — the cycle is
reproduced. -/
theorem C8_clone_cycle :
    (∀ (fuel : Nat) (parents nodes : List JSVal) (h : Heap) (src : JSVal)
        (p : JSVal × JSVal),
        (parents.zip nodes).find? (fun q => q.1 == src) = some p →
        cloneGo (fuel + 1) parents nodes h src = .ok (h, p.2)) ∧
    (∀ k : Nat, Traverse.clone ⟨.ref 0⟩ selfHeap (k + 2) =
        .ok ([Cell.record [("self", .ref 0)], Cell.record [("self", .ref 1)]],
             .ref 1)) ∧
    JSVal.ref 1 ≠ JSVal.ref 0 ∧
    getProp [Cell.record [("self", .ref 0)], Cell.record [("self", .ref 1)]]
      (.ref 1) (.fld "self") = .ref 1 := by
  refine ⟨?_, ?_, by decide, rfl⟩
  · intro fuel parents nodes h src p hp
    simp [cloneGo, hp]
  · intro k
    rfl

/-- C8 witness: the reuse clause applied at a concrete recursion state
(the cyclic `self` child finds its original at index 0 and returns the
copy at address 1). -/
theorem C8_clone_cycle_witness :
    cloneGo 1 [JSVal.ref 0] [JSVal.ref 1] selfHeap (.ref 0) =
      .ok (selfHeap, .ref 1) :=
  C8_clone_cycle.1 0 [JSVal.ref 0] [JSVal.ref 1] selfHeap (.ref 0)
    (JSVal.ref 0, JSVal.ref 1) (by decide)

/-! ### `delete` versus `remove` at the root -/

/-- C10 (confirmed).  `delete` has no root guard: its first action
reads `state.parent.node`, and at the root `state.parent` is undefined
(the ancestor stack is empty), so any walk whose callback invokes
`delete` at the root — whatever it does elsewhere and whatever the
`stopHere` flag — throws a TypeError and aborts.  By contrast `remove`
at the root is a guarded no-op: the same walk shape with `remove(true)`
completes, leaving the tree unchanged. -/
theorem C10_delete_root :
    (∀ (h : Heap) (t : Traverse) (fuel : Nat) (s : Bool) (r : Callback),
        t.forEach h (fuel + 1)
          (fun view => if view.isRoot = true
            then { cmds := [Cmd.del s], ret := none } else r view) =
          .thrown "TypeError") ∧
    Traverse.forEach ⟨.ref 0⟩ qHeap 3 cbDelRoot = .thrown "TypeError" ∧
    Traverse.forEach ⟨.ref 0⟩ qHeap 3 cbRemRoot = .ok (qHeap, .ref 0, ⟨.ref 0⟩) := by
  refine ⟨?_, rfl, rfl⟩
  intro h t fuel s r
  rfl

/-! ### `remove` semantics -/

/-- The heap after the `remove(true)` walk over `[[1],[2],[3]]`: the
root sequence keeps the original first and third elements. -/
def remResHeap : Heap :=
  [Cell.arr [.ref 1, .ref 3], Cell.arr [.num 1], Cell.arr [.num 2],
   Cell.arr [.num 3]]

/-- The full final walk state of that walk (note the walker's faithful
quirk: the snapshot still holds key 2, which after the splice reads
`undefined`). -/
def remWalkSt : WSt :=
  { heap := remResHeap, path := [], parents := [], alive := true,
    trace :=
      [Ev.enter [] (.ref 0),
       Ev.visit [] (.ref 0) (.ref 0) true false none,
       Ev.enter [Key.idx 0] (.ref 1),
       Ev.visit [Key.idx 0] (.ref 1) (.ref 1) false false none,
       Ev.enter [Key.idx 0, Key.idx 0] (.num 1),
       Ev.visit [Key.idx 0, Key.idx 0] (.num 1) (.num 1) false true none,
       Ev.enter [Key.idx 1] (.ref 2),
       Ev.visit [Key.idx 1] (.ref 2) (.ref 2) false false none,
       Ev.enter [Key.idx 2] .undef,
       Ev.visit [Key.idx 2] .undef .undef false true none] }

/-- C6 (confirmed).  `remove` on a node's state: a safe no-op when the
ancestor stack is empty (the root — no parent, nothing thrown, and the
early return skips even the `stopHere` flag); a one-element splice of
this node's index when the parent's current node is a sequence (the
spliced list is `take i ++ drop (i+1)`, so every later sibling shifts
down one index and the length drops by one); a record-style key
deletion otherwise.  Concretely, `remove(true)` at index 1 of the
three-element sequence `[[1],[2],[3]]` yields a two-element sequence
whose index 1 holds the original index-2 element (the very reference at
address 3), and the walk never descends into the removed node's former
children (no visit below path `[1]`). -/
theorem C6_remove :
    (∀ (isRoot : Bool) (key : Option Key) (st : WSt) (ctx : VCtx) (s : Bool),
        st.parents = [] →
        execCmd isRoot key st ctx (.remove s) = .ok (st, ctx)) ∧
    (∀ (isRoot : Bool) (st : WSt) (ctx : VCtx) (s : Bool) (fr : Frame)
        (a i : Nat) (es : List JSVal),
        st.parents.getLast? = some fr → fr.node = .ref a →
        st.heap.cell a = some (.arr es) →
        execCmd isRoot (some (.idx i)) st ctx (.remove s) =
          .ok ({ st with heap := st.heap.setCell a (.arr (es.eraseIdx i)) },
               { ctx with keepGoing := if s then false else ctx.keepGoing })) ∧
    (∀ (es : List JSVal) (i : Nat),
        es.eraseIdx i = es.take i ++ es.drop (i + 1) ∧
        (i < es.length → (es.eraseIdx i).length = es.length - 1)) ∧
    (∀ (isRoot : Bool) (st : WSt) (ctx : VCtx) (s : Bool) (fr : Frame)
        (a : Nat) (fs : List (String × JSVal)) (nm : String),
        st.parents.getLast? = some fr → fr.node = .ref a →
        st.heap.cell a = some (.record fs) →
        execCmd isRoot (some (.fld nm)) st ctx (.remove s) =
          .ok ({ st with heap := st.heap.setCell a (.record (fs.filter (fun p => ¬ p.1 = nm))) },
               { ctx with keepGoing := if s then false else ctx.keepGoing })) ∧
    Traverse.forEach ⟨.ref 0⟩ remHeap 5 cbRem = .ok (remResHeap, .ref 0, ⟨.ref 0⟩) ∧
    getProp remResHeap (.ref 0) (.idx 1) = .ref 3 ∧
    remHeap.cell 3 = some (.arr [.num 3]) ∧
    walk 5 remHeap (.ref 0) cbRem false = .ok (remWalkSt, .ref 0) ∧
    (visitsIn remWalkSt.trace).map Ev.vpath =
      [[], [Key.idx 0], [Key.idx 0, Key.idx 0], [Key.idx 1], [Key.idx 2]] ∧
    ¬ ((visitsIn remWalkSt.trace).map Ev.vpath).contains
        [Key.idx 1, Key.idx 0] := by
  refine ⟨?_, ?_, ?_, ?_, rfl, rfl, rfl, rfl, rfl, by decide⟩
  · intro isRoot key st ctx s hp
    simp [execCmd, hp]
  · intro isRoot st ctx s fr a i es hlast hnode hcell
    simp [execCmd, hlast, isArray, hnode, hcell, spliceOne]
  · intro es i
    refine ⟨List.eraseIdx_eq_take_drop_succ es i, fun hi => ?_⟩
    rw [List.length_eraseIdx]
    simp [hi]
  · intro isRoot st ctx s fr a fs nm hlast hnode hcell
    simp [execCmd, hlast, isArray, hnode, hcell, deleteProp]

/-! ### Generic walk lemmas -/

/-- A control operation never touches the trace, the ancestor stack or
the path, and never raises the alive flag. -/
theorem execCmd_pres {r : Bool} {k : Option Key} {st : WSt} {ctx : VCtx}
    {c : Cmd} {st' : WSt} {ctx' : VCtx}
    (h : execCmd r k st ctx c = .ok (st', ctx')) :
    st'.trace = st.trace ∧ st'.parents = st.parents ∧ st'.path = st.path ∧
    (st.alive = false → st'.alive = false) := by
  cases c <;> simp only [execCmd] at h <;>
    (try split at h) <;> (try split at h) <;>
    first
      | (cases h; exact ⟨rfl, rfl, rfl, fun ha => ha⟩)
      | (cases h; exact ⟨rfl, rfl, rfl, fun ha => rfl⟩)
      | cases h

/-- Running a command list never touches the trace, the ancestor stack
or the path, and never raises the alive flag. -/
theorem execCmds_pres :
    ∀ {cs : List Cmd} {r : Bool} {k : Option Key} {st : WSt} {ctx : VCtx}
      {st' : WSt} {ctx' : VCtx},
      execCmds r k st ctx cs = .ok (st', ctx') →
      st'.trace = st.trace ∧ st'.parents = st.parents ∧ st'.path = st.path ∧
      (st.alive = false → st'.alive = false)
  | [], _, _, _, _, _, _, h => by
    cases h
    exact ⟨rfl, rfl, rfl, fun hh => hh⟩
  | c :: cs, r, k, st, ctx, st', ctx', h => by
    simp only [execCmds] at h
    split at h
    case h_1 st2 ctx2 heq =>
      obtain ⟨h1, h2, h3, h4⟩ := execCmd_pres heq
      obtain ⟨g1, g2, g3, g4⟩ := execCmds_pres h
      exact ⟨g1.trans h1, g2.trans h2, g3.trans h3, fun ha => g4 (h4 ha)⟩
    case h_2 => cases h
    case h_3 => cases h

/-- With a non-empty ancestor stack no control operation can throw. -/
theorem execCmd_ok (r : Bool) (k : Option Key) (st : WSt) (ctx : VCtx)
    (c : Cmd) (hne : st.parents ≠ []) :
    ∃ st' ctx', execCmd r k st ctx c = .ok (st', ctx') := by
  obtain ⟨fr, hfr⟩ : ∃ fr, st.parents.getLast? = some fr := by
    cases hl : st.parents.getLast? with
    | some a => exact ⟨a, rfl⟩
    | none => exact absurd (List.getLast?_eq_none_iff.mp hl) hne
  cases c <;> simp [execCmd, hfr] <;> split <;> simp

/-- With a non-empty ancestor stack a command list runs to completion,
preserving trace, ancestor stack and path. -/
theorem execCmds_ok :
    ∀ (cs : List Cmd) (r : Bool) (k : Option Key) (st : WSt) (ctx : VCtx),
      st.parents ≠ [] →
      ∃ st' ctx', execCmds r k st ctx cs = .ok (st', ctx') ∧
        st'.trace = st.trace ∧ st'.parents = st.parents ∧ st'.path = st.path
  | [], r, k, st, ctx, _ => ⟨st, ctx, rfl, rfl, rfl, rfl⟩
  | c :: cs, r, k, st, ctx, hne => by
    obtain ⟨st2, ctx2, hc⟩ := execCmd_ok r k st ctx c hne
    obtain ⟨h1, h2, h3, _⟩ := execCmd_pres hc
    obtain ⟨st', ctx', hcs, g1, g2, g3⟩ :=
      execCmds_ok cs r k st2 ctx2 (by rw [h2]; exact hne)
    refine ⟨st', ctx', ?_, g1.trans h1, g2.trans h2, g3.trans h3⟩
    simp only [execCmds, hc, hcs]

/-- Copying a non-composite value is the identity (no allocation). -/
theorem copyVal_not_pure {h : Heap} {v : JSVal}
    (hv : isPureObj h v = false) : copyVal h v = (h, v) := by
  simp [copyVal, hv]

/-- Copying a composite value allocates one fresh cell of the same
container kind; in particular the copy is again composite and the old
cells are untouched. -/
theorem copyVal_pure {h : Heap} {v : JSVal}
    (hv : isPureObj h v = true) :
    ∃ c : Cell, copyVal h v = (h ++ [c], .ref h.length) ∧
      isPureObj (h ++ [c]) (.ref h.length) = true := by
  match v with
  | .undef | .null | .bool _ | .num _ | .str _ => simp [isPureObj] at hv
  | .ref a =>
    match hc : h.cell a with
    | none => simp [isPureObj, hc] at hv
    | some (.date _) | some (.regexp _) | some (.errorObj _)
    | some (.boxedBool _) | some (.boxedNum _) | some (.boxedStr _) =>
      simp [isPureObj, hc] at hv
    | some (.record fs) =>
      refine ⟨.record fs, ?_, ?_⟩
      · simp [copyVal, hv, hc, Heap.alloc]
      · simp [isPureObj, Heap.cell, List.getElem?_concat_length]
    | some (.arr es) =>
      refine ⟨.arr es, ?_, ?_⟩
      · simp [copyVal, hv, hc, Heap.alloc]
      · simp [isPureObj, Heap.cell, List.getElem?_concat_length]


/-- `find?` returns the first match: the list splits at the found
element, with no match before it. -/
theorem find?_first {α : Type} (p : α → Bool) :
    ∀ (l : List α) (a : α), l.find? p = some a →
      ∃ pre post, l = pre ++ a :: post ∧ ∀ x ∈ pre, p x = false
  | [], a, h => by simp [List.find?] at h
  | x :: xs, a, h => by
    cases hx : p x with
    | true =>
      have hxa : some x = some a := by
        rw [List.find?] at h
        rw [hx] at h
        exact h
      cases hxa
      exact ⟨[], xs, rfl, by simp⟩
    | false =>
      have h' : xs.find? p = some a := by
        rw [List.find?] at h
        rw [hx] at h
        exact h
      obtain ⟨pre, post, hsplit, hpre⟩ := find?_first p xs a h'
      refine ⟨x :: pre, post, by rw [hsplit]; rfl, ?_⟩
      intro y hy
      rcases List.mem_cons.mp hy with rfl | hy
      · exact hx
      · exact hpre y hy

/-- One walk state extends another: the trace has only grown, and a
downed alive flag stays down. -/
def TraceExt (st st' : WSt) : Prop :=
  (∃ d, st'.trace = st.trace ++ d) ∧ (st.alive = false → st'.alive = false)

theorem TraceExt.rfl {st : WSt} : TraceExt st st :=
  ⟨⟨[], by simp⟩, fun h => h⟩

theorem TraceExt.trans {a b c : WSt} (h1 : TraceExt a b) (h2 : TraceExt b c) :
    TraceExt a c := by
  obtain ⟨⟨d1, hd1⟩, ha1⟩ := h1
  obtain ⟨⟨d2, hd2⟩, ha2⟩ := h2
  exact ⟨⟨d1 ++ d2, by rw [hd2, hd1, List.append_assoc]⟩, fun h => ha2 (ha1 h)⟩

theorem TraceExt.setPath {st0 st : WSt} (h : TraceExt st0 st) (p : List Key) :
    TraceExt st0 { st with path := p } := h

theorem TraceExt.setHeap {st0 st : WSt} (h : TraceExt st0 st) (hp : Heap) :
    TraceExt st0 { st with heap := hp } := h

theorem TraceExt.setParents {st0 st : WSt} (h : TraceExt st0 st)
    (ps : List Frame) : TraceExt st0 { st with parents := ps } := h

theorem TraceExt.push {st0 st : WSt} (h : TraceExt st0 st) (l : List Ev) :
    TraceExt st0 { st with trace := st.trace ++ l } := by
  obtain ⟨⟨d, hd⟩, ha⟩ := h
  exact ⟨⟨d ++ l, by rw [hd, List.append_assoc]⟩, ha⟩

theorem TraceExt.ite {st0 : WSt} {c : Prop} [Decidable c] {a b : WSt}
    (h1 : TraceExt st0 a) (h2 : TraceExt st0 b) :
    TraceExt st0 (if c then a else b) := by
  by_cases hc : c
  · simpa [hc] using h1
  · simpa [hc] using h2

/-- A successful control-operation run is a (trace-preserving) state
extension. -/
theorem execCmds_traceExt {cs : List Cmd} {r : Bool} {k : Option Key}
    {st : WSt} {ctx : VCtx} {st' : WSt} {ctx' : VCtx}
    (h : execCmds r k st ctx cs = .ok (st', ctx')) : TraceExt st st' := by
  obtain ⟨h1, _, _, h4⟩ := execCmds_pres h
  exact ⟨⟨[], by simp [h1]⟩, h4⟩

/-- The children loop only extends the walk state, provided each child
visit does. -/
theorem childrenLoop_mono
    {w : WSt → JSVal → TRes (WSt × JSVal)}
    (hw : ∀ st v st' v', w st v = .ok (st', v') → TraceExt st st')
    {imm : Bool} {fr : Frame} {p q : Bool} :
    ∀ {ks : List Key} {st st' : WSt},
      childrenLoop w imm fr p q st ks = .ok st' → TraceExt st st'
  | [], st, st', h => by
    cases h
    exact TraceExt.rfl
  | k :: ks, st, st', h => by
    simp only [childrenLoop] at h
    split at h
    case h_1 st3 childNode heq =>
      by_cases hp : p = true <;> by_cases hq : q = true <;>
        by_cases hio : (imm && hasOwnProperty st3.heap fr.node k) = true <;>
        simp only [hp, hq, hio, if_true, if_false, Bool.false_eq_true,
          eq_self_iff_true] at h heq <;>
        refine TraceExt.trans (TraceExt.trans (TraceExt.trans ?_
          (hw _ _ _ _ heq)) ?_) (childrenLoop_mono hw h) <;>
        first
          | exact ⟨⟨_, rfl⟩, fun hh => hh⟩
          | exact ⟨⟨[], by simp⟩, fun hh => hh⟩
    case h_2 => cases h
    case h_3 => cases h

/-- Guarding a trace append behind a hook flag still extends the
state. -/
theorem TraceExt.hookIf (x : WSt) (c : Prop) [Decidable c] (e : Ev) :
    TraceExt x (if c then { x with trace := x.trace ++ [e] } else x) :=
  TraceExt.ite (TraceExt.rfl.push _) TraceExt.rfl

/-- A state whose trace is the old one with two batches appended (and
the alive flag untouched) is an extension, whatever the other fields. -/
theorem TraceExt.mkTwo {st : WSt} (hp : Heap) (pa : List Key)
    (pr : List Frame) (l1 l2 : List Ev) :
    TraceExt st { heap := hp, path := pa, parents := pr,
                  alive := st.alive, trace := st.trace ++ l1 ++ l2 } :=
  ⟨⟨l1 ++ l2, by rw [List.append_assoc]⟩, fun hh => hh⟩

/-- A successful walker call only extends the walk state: the trace
grows (completed visits are unaffected) and a downed alive flag is
never raised again. -/
theorem walkerF_mono {imm : Bool} {cb : Callback} :
    ∀ {fuel : Nat} {st : WSt} {v : JSVal} {st2 : WSt} {v2 : JSVal},
      walkerF imm cb fuel st v = .ok (st2, v2) → TraceExt st st2
  | 0, st, v, st2, v2, h => by cases h
  | Nat.succ fuel, st, v, st2, v2, h => by
    simp only [walkerF] at h
    split at h
    case isTrue =>
      cases h
      exact ⟨⟨_, rfl⟩, fun hh => hh⟩
    case isFalse =>
      split at h
      case h_1 => cases h
      case h_2 => cases h
      case h_3 st3 ctx3 heq3 =>
        have e3 : TraceExt st st3 :=
          TraceExt.trans (TraceExt.mkTwo _ _ _ _ _) (execCmds_traceExt heq3)
        split at h
        case h_1 => cases h
        case h_2 => cases h
        case h_3 st4 ctx4 heq4 =>
          have e4 : TraceExt st st4 := by
            refine TraceExt.trans e3 ?_
            split at heq4
            case h_1 x hx =>
              obtain ⟨h1, _, _, h4⟩ := execCmd_pres heq4
              exact ⟨⟨[], by simp [h1]⟩, h4⟩
            case h_2 =>
              cases heq4
              exact TraceExt.rfl
          have hw : ∀ a b c d, walkerF imm cb fuel a b = .ok (c, d) →
              TraceExt a c := fun a b c d hh => walkerF_mono hh
          cases hmb : ctx4.mBefore <;> cases hkg : ctx4.keepGoing <;>
            cases hma : ctx4.mAfter <;> simp only [hmb, hkg, hma] at h <;>
            simp at h <;>
            first
              | (obtain ⟨rfl, rfl⟩ := h
                 first
                   | exact e4
                   | exact e4.push _)
              | (split at h
                 · split at h
                   case h_1 => cases h
                   case h_2 => cases h
                   case h_3 st6 heq6 =>
                     simp at h
                     obtain ⟨rfl, rfl⟩ := h
                     first
                       | exact ((e4.setParents _).trans
                           (childrenLoop_mono hw heq6)).setParents _
                       | exact (((e4.setParents _).trans
                           (childrenLoop_mono hw heq6)).setParents _).push _
                       | exact (((e4.push _).setParents _).trans
                           (childrenLoop_mono hw heq6)).setParents _
                       | exact ((((e4.push _).setParents _).trans
                           (childrenLoop_mono hw heq6)).setParents _).push _
                 · simp at h
                   obtain ⟨rfl, rfl⟩ := h
                   first
                     | exact e4
                     | exact e4.push _
                     | exact (e4.push _).push _)

/-- C3 (confirmed).  The `stop` operation clears the walk-scoped alive
flag; any walker call reaching a node with the flag down returns
immediately — the trace gains only the arrival event (so the callback
is not invoked, no hook runs, and no child is entered) and heap, path,
ancestor stack and flag are otherwise untouched (in copy-on-write mode
the one-level copy has already been taken, faithfully to the source
order); a successful walker call never raises a downed flag (once
stopped, every later visit in the walk short-circuits the same way);
and the trace only ever grows, so visits completed before the stop are
unaffected. -/
theorem C3_stop :
    (∀ (r : Bool) (k : Option Key) (st : WSt) (ctx : VCtx),
        execCmd r k st ctx .stop = .ok ({ st with alive := false }, ctx)) ∧
    (∀ (imm : Bool) (cb : Callback) (fuel : Nat) (st : WSt) (v : JSVal),
        st.alive = false →
        walkerF imm cb (fuel + 1) st v =
          .ok ({ st with heap := (copyIf imm st.heap v).1,
                         trace := st.trace ++ [Ev.enter st.path v] },
               (copyIf imm st.heap v).2)) ∧
    (∀ (imm : Bool) (cb : Callback) (fuel : Nat) (st st2 : WSt)
        (v v2 : JSVal),
        walkerF imm cb fuel st v = .ok (st2, v2) → st.alive = false →
        st2.alive = false) ∧
    (∀ (imm : Bool) (cb : Callback) (fuel : Nat) (st st2 : WSt)
        (v v2 : JSVal),
        walkerF imm cb fuel st v = .ok (st2, v2) →
        ∃ d, st2.trace = st.trace ++ d) := by
  refine ⟨fun r k st ctx => rfl, ?_, ?_, ?_⟩
  · intro imm cb fuel st v ha
    simp [walkerF, ha]
  · intro imm cb fuel st st2 v v2 h ha
    exact (walkerF_mono h).2 ha
  · intro imm cb fuel st st2 v v2 h
    exact (walkerF_mono h).1

/-- C3 witness: a walker call on a concrete stopped state returns at
once with only the arrival recorded. -/
theorem C3_stop_witness :
    walkerF false obsCb 1
      { heap := qHeap, path := [], parents := [], alive := false,
        trace := [] } (.ref 0) =
      .ok ({ heap := qHeap, path := [], parents := [], alive := false,
             trace := [Ev.enter [] (.ref 0)] }, .ref 0) := by
  have h := C3_stop.2.1 false obsCb 0
    { heap := qHeap, path := [], parents := [], alive := false, trace := [] }
    (.ref 0) rfl
  simpa [copyIf] using h

/-- For a composite current node, `updateState` sets the circular link
to the first ancestor whose original reference is identical to this
node's original. -/
theorem calcState_circ {h : Heap} {n : JSVal} (ps : List Frame)
    (v : JSVal) (hn : isPureObj h n = true) :
    (calcState h ps n v { keys := none, isLeaf := true, circ := none }).circ =
      ps.find? (fun f => f.node_ == v) := by
  simp [calcState, hn]

/-- When no ancestor's original matches, the circular link stays
unset, whatever the current node is. -/
theorem calcState_circ_none {h : Heap} {n : JSVal} {ps : List Frame}
    {v : JSVal} (hf : ps.find? (fun f => f.node_ == v) = none) :
    (calcState h ps n v { keys := none, isLeaf := true, circ := none }).circ =
      none := by
  unfold calcState
  split <;> simp [hf]

/-- For a non-composite current node, `updateState` never sets the
circular link. -/
theorem calcState_circ_not_pure {h : Heap} {n : JSVal} {ps : List Frame}
    {v : JSVal} (hn : isPureObj h n = false) :
    (calcState h ps n v { keys := none, isLeaf := true, circ := none }).circ =
      none := by
  simp [calcState, hn]

/-- Every successful walker call on a live state records first the
arrival and then exactly the visit event built from the produced node
value, the path, the root flag and `updateState`'s leaf flag and
circular link; everything afterwards is appended behind them. -/
theorem walkerF_trace_shape {imm : Bool} {cb : Callback} {fuel : Nat}
    {st : WSt} {v : JSVal} {st2 : WSt} {v2 : JSVal}
    (ha : st.alive = true)
    (h : walkerF imm cb (fuel + 1) st v = .ok (st2, v2)) :
    ∃ rest, st2.trace = st.trace ++ Ev.enter st.path v ::
      Ev.visit st.path (copyIf imm st.heap v).2 v st.path.isEmpty
        (calcState (copyIf imm st.heap v).1 st.parents
          (copyIf imm st.heap v).2 v
          { keys := none, isLeaf := true, circ := none }).isLeaf
        (Option.map (fun fr => fr.path)
          (calcState (copyIf imm st.heap v).1 st.parents
            (copyIf imm st.heap v).2 v
            { keys := none, isLeaf := true, circ := none }).circ) :: rest := by
  simp only [walkerF] at h
  split at h
  case isTrue hco => simp [ha] at hco
  case isFalse =>
    split at h
    case h_1 => cases h
    case h_2 => cases h
    case h_3 st3 ctx3 heq3 =>
      have htr3 := (execCmds_pres heq3).1
      split at h
      case h_1 => cases h
      case h_2 => cases h
      case h_3 st4 ctx4 heq4 =>
        have htr4 : st4.trace = st3.trace := by
          split at heq4
          case h_1 x hx => exact (execCmd_pres heq4).1
          case h_2 => cases heq4; rfl
        have hw : ∀ a b c d, walkerF imm cb fuel a b = .ok (c, d) →
            TraceExt a c := fun a b c d hh => walkerF_mono hh
        cases hmb : ctx4.mBefore <;> cases hkg : ctx4.keepGoing <;>
          cases hma : ctx4.mAfter <;> simp only [hmb, hkg, hma] at h <;>
          simp at h <;>
          first
            | (obtain ⟨rfl, rfl⟩ := h
               exact ⟨_, by simp only [htr4, htr3]; simp [List.append_assoc]; try rfl⟩)
            | (split at h
               · split at h
                 case h_1 => cases h
                 case h_2 => cases h
                 case h_3 st6 heq6 =>
                   obtain ⟨⟨d, hd⟩, _⟩ := childrenLoop_mono hw heq6
                   simp at h
                   obtain ⟨rfl, rfl⟩ := h
                   exact ⟨_, by simp only [hd]; simp only [htr4, htr3]; simp [List.append_assoc]; try rfl⟩
               · simp at h
                 obtain ⟨rfl, rfl⟩ := h
                 exact ⟨_, by simp only [htr4, htr3]; simp [List.append_assoc]; try rfl⟩)

/-- When `updateState` has set the circular link (to the ancestor
`fr`), a successful walker call records the arrival and the visit —
whose circular field is exactly `fr`'s path — and then at most hook
events: no further node is entered or visited (the children are never
descended into), and path and ancestor stack come back unchanged. -/
theorem walkerF_circular {imm : Bool} {cb : Callback} {fuel : Nat}
    {st : WSt} {v : JSVal} {fr : Frame} {st2 : WSt} {v2 : JSVal}
    (ha : st.alive = true)
    (hc : (calcState (copyIf imm st.heap v).1 st.parents
        (copyIf imm st.heap v).2 v
        { keys := none, isLeaf := true, circ := none }).circ = some fr)
    (h : walkerF imm cb (fuel + 1) st v = .ok (st2, v2)) :
    st2.parents = st.parents ∧ st2.path = st.path ∧
    ∃ rest, st2.trace = st.trace ++ Ev.enter st.path v ::
        Ev.visit st.path (copyIf imm st.heap v).2 v st.path.isEmpty
          (calcState (copyIf imm st.heap v).1 st.parents
            (copyIf imm st.heap v).2 v
            { keys := none, isLeaf := true, circ := none }).isLeaf
          (some fr.path) :: rest ∧
      entersIn rest = [] ∧ visitsIn rest = [] := by
  simp only [walkerF] at h
  split at h
  case isTrue hco => simp [ha] at hco
  case isFalse =>
    split at h
    case h_1 => cases h
    case h_2 => cases h
    case h_3 st3 ctx3 heq3 =>
      obtain ⟨htr3, hpar3, hpath3, _⟩ := execCmds_pres heq3
      split at h
      case h_1 => cases h
      case h_2 => cases h
      case h_3 st4 ctx4 heq4 =>
        have hpres4 : st4.trace = st3.trace ∧ st4.parents = st3.parents ∧
            st4.path = st3.path := by
          split at heq4
          case h_1 x hx =>
            obtain ⟨a, b, c, _⟩ := execCmd_pres heq4
            exact ⟨a, b, c⟩
          case h_2 =>
            cases heq4
            exact ⟨rfl, rfl, rfl⟩
        obtain ⟨htr4, hpar4, hpath4⟩ := hpres4
        simp only [hc] at h
        cases hmb : ctx4.mBefore <;> cases hkg : ctx4.keepGoing <;>
          cases hma : ctx4.mAfter <;> simp only [hmb, hkg, hma] at h <;>
          simp at h <;>
          obtain ⟨rfl, rfl⟩ := h <;>
          exact ⟨by simp [hpar4, hpar3], by simp [hpath4, hpath3],
            ⟨_, by simp only [htr4, htr3, hc]; simp [List.append_assoc]; try rfl,
             by simp [entersIn, Ev.isEnter], by simp [visitsIn, Ev.isVisit]⟩⟩

/-- The walker's per-node value production keeps a composite value
composite. -/
theorem copyIf_pure {imm : Bool} {h : Heap} {v : JSVal}
    (hp : isPureObj h v = true) :
    isPureObj (copyIf imm h v).1 (copyIf imm h v).2 = true := by
  cases imm
  · simpa [copyIf] using hp
  · obtain ⟨c, hc1, hc2⟩ := copyVal_pure hp
    simp [copyIf, hc1, hc2]

/-- The walker's per-node value production on a non-composite value is
the identity. -/
theorem copyIf_not_pure {imm : Bool} {h : Heap} {v : JSVal}
    (hp : isPureObj h v = false) : copyIf imm h v = (h, v) := by
  cases imm
  · simp [copyIf]
  · simp [copyIf, copyVal_not_pure hp]

/-- The final walk state of `forEach` over `o = {}; o.self = o`:
terminates after visiting the root once and the `self` child once,
the latter flagged circular (link to the root's path `[]`), with no
descent below it. -/
def selfWalkSt : WSt :=
  { heap := selfHeap, path := [], parents := [], alive := true,
    trace := [Ev.enter [] (.ref 0),
              Ev.visit [] (.ref 0) (.ref 0) true false none,
              Ev.enter [Key.fld "self"] (.ref 0),
              Ev.visit [Key.fld "self"] (.ref 0) (.ref 0) false false
                (some [])] }

/-- C1 (confirmed, with the `is`-helpers modelled from the spec).  For
every walk, either mode, any callback: (1) when the visited node's
current value is composite and its original reference is
reference-identical to the original of some strict ancestor on the
walk's stack (`find?` giving the first such), the visit records the
circular link as exactly that ancestor's path and nothing below the
node is entered or visited — the children are never descended into;
(2) when no strict ancestor's original matches, the circular link of
the visit is unset; (3) a non-composite node's visit never carries a
circular link; (4) the ancestor scan really is a first-match scan:
the stack splits at the found frame, whose original is the node's
original, with no earlier match; (5) concretely, for `o = {};
o.self = o`, `forEach` terminates at every sufficient fuel, visiting
the root once, visiting and circular-flagging the `self` child, and
descending no further. -/
theorem C1_circular :
    (∀ (imm : Bool) (cb : Callback) (fuel : Nat) (st : WSt) (v : JSVal)
        (fr : Frame) (st2 : WSt) (v2 : JSVal),
        st.alive = true → isPureObj st.heap v = true →
        st.parents.find? (fun f => f.node_ == v) = some fr →
        walkerF imm cb (fuel + 1) st v = .ok (st2, v2) →
        st2.parents = st.parents ∧ st2.path = st.path ∧
        ∃ rest, st2.trace = st.trace ++ Ev.enter st.path v ::
            Ev.visit st.path (copyIf imm st.heap v).2 v st.path.isEmpty
              (calcState (copyIf imm st.heap v).1 st.parents
                (copyIf imm st.heap v).2 v
                { keys := none, isLeaf := true, circ := none }).isLeaf
              (some fr.path) :: rest ∧
          entersIn rest = [] ∧ visitsIn rest = []) ∧
    (∀ (imm : Bool) (cb : Callback) (fuel : Nat) (st : WSt) (v : JSVal)
        (st2 : WSt) (v2 : JSVal),
        st.alive = true →
        st.parents.find? (fun f => f.node_ == v) = none →
        walkerF imm cb (fuel + 1) st v = .ok (st2, v2) →
        ∃ leafB rest, st2.trace = st.trace ++ Ev.enter st.path v ::
            Ev.visit st.path (copyIf imm st.heap v).2 v st.path.isEmpty
              leafB none :: rest) ∧
    (∀ (imm : Bool) (cb : Callback) (fuel : Nat) (st : WSt) (v : JSVal)
        (st2 : WSt) (v2 : JSVal),
        st.alive = true → isPureObj st.heap v = false →
        walkerF imm cb (fuel + 1) st v = .ok (st2, v2) →
        ∃ leafB rest, st2.trace = st.trace ++ Ev.enter st.path v ::
            Ev.visit st.path (copyIf imm st.heap v).2 v st.path.isEmpty
              leafB none :: rest) ∧
    (∀ (ps : List Frame) (v : JSVal) (fr : Frame),
        ps.find? (fun f => f.node_ == v) = some fr →
        fr.node_ = v ∧ ∃ pre post, ps = pre ++ fr :: post ∧
          ∀ f ∈ pre, ¬ f.node_ = v) ∧
    (∀ k : Nat, walk (k + 2) selfHeap (.ref 0) obsCb false =
        .ok (selfWalkSt, .ref 0)) ∧
    (visitsIn selfWalkSt.trace).map Ev.vpath = [[], [Key.fld "self"]] ∧
    (visitsIn selfWalkSt.trace).map Ev.vcirc = [none, some []] ∧
    entersIn selfWalkSt.trace =
      [Ev.enter [] (.ref 0), Ev.enter [Key.fld "self"] (.ref 0)] := by
  refine ⟨?_, ?_, ?_, ?_, ?_, by decide, by decide, by decide⟩
  · intro imm cb fuel st v fr st2 v2 ha hp hf h
    have hc : (calcState (copyIf imm st.heap v).1 st.parents
        (copyIf imm st.heap v).2 v
        { keys := none, isLeaf := true, circ := none }).circ = some fr := by
      rw [calcState_circ _ _ (copyIf_pure hp)]
      exact hf
    exact walkerF_circular ha hc h
  · intro imm cb fuel st v st2 v2 ha hf h
    obtain ⟨rest, htr⟩ := walkerF_trace_shape ha h
    have hcn : (calcState (copyIf imm st.heap v).1 st.parents
        (copyIf imm st.heap v).2 v
        { keys := none, isLeaf := true, circ := none }).circ = none := by
      by_cases hp : isPureObj st.heap v = true
      · rw [calcState_circ _ _ (copyIf_pure hp)]
        exact hf
      · have hp' : isPureObj st.heap v = false := by simpa using hp
        refine calcState_circ_not_pure ?_
        rw [copyIf_not_pure hp']
        exact hp'
    rw [hcn] at htr
    exact ⟨_, rest, by simpa using htr⟩
  · intro imm cb fuel st v st2 v2 ha hp h
    obtain ⟨rest, htr⟩ := walkerF_trace_shape ha h
    have hcn : (calcState (copyIf imm st.heap v).1 st.parents
        (copyIf imm st.heap v).2 v
        { keys := none, isLeaf := true, circ := none }).circ = none := by
      refine calcState_circ_not_pure ?_
      rw [copyIf_not_pure hp]
      exact hp
    rw [hcn] at htr
    exact ⟨_, rest, by simpa using htr⟩
  · intro ps v fr hf
    constructor
    · simpa using List.find?_some hf
    · obtain ⟨pre, post, hsplit, hpre⟩ := find?_first _ ps fr hf
      exact ⟨pre, post, hsplit, fun f hfm => by simpa using hpre f hfm⟩
  · intro k
    rfl

/-- The root frame of the cyclic example, as pushed when descending
into `o`. -/
def C1exFr : Frame := { node := .ref 0, node_ := .ref 0, path := [], key := none }

/-- The walk state upon reaching the `self` child of the cyclic
example. -/
def C1exSt : WSt :=
  { heap := selfHeap, path := [Key.fld "self"], parents := [C1exFr],
    alive := true, trace := [] }

/-- The walk state after visiting that circular child. -/
def C1exSt2 : WSt :=
  { heap := selfHeap, path := [Key.fld "self"], parents := [C1exFr],
    alive := true,
    trace := [Ev.enter [Key.fld "self"] (.ref 0),
              Ev.visit [Key.fld "self"] (.ref 0) (.ref 0) false false
                (some [])] }

/-- C1 witness: the no-descent clause applied at a concrete circular
visit (the `self` child of the cyclic example, with the root frame on
the stack). -/
theorem C1_circular_witness :
    walkerF false obsCb 1 C1exSt (.ref 0) = .ok (C1exSt2, .ref 0) ∧
    C1exSt2.parents = C1exSt.parents := by
  refine ⟨rfl, ?_⟩
  exact (C1_circular.1 false obsCb 0 C1exSt (.ref 0) C1exFr C1exSt2 (.ref 0)
    rfl rfl rfl rfl).1

/-- C6 witness: the root no-op clause applied at a concrete state —
`remove(true)` with an empty ancestor stack changes nothing. -/
theorem C6_remove_witness :
    execCmd true none (initSt qHeap)
      { node := .ref 0, keepGoing := true, mBefore := false,
        mAfter := false, mPre := false, mPost := false } (.remove true) =
      .ok (initSt qHeap,
           { node := .ref 0, keepGoing := true, mBefore := false,
             mAfter := false, mPre := false, mPost := false }) :=
  C6_remove.1 true none (initSt qHeap)
    { node := .ref 0, keepGoing := true, mBefore := false,
      mAfter := false, mPre := false, mPost := false } true rfl

/-- Spec-side node count, following the spec's words: the walk visits
"the root plus every non-circular descendant" — every node occurrence
reached by descending into composite nodes whose reference does not
already occur among the ancestors of the occurrence; a circular or
leaf occurrence itself still counts one visit but contributes no
children.  Fuelled with the walker's own fuel discipline so the two
recursions can be compared at equal fuel.  The children summation: -/
def specCountKids (c : JSVal → TRes Nat) (h : Heap) (parent : JSVal) :
    List Key → TRes Nat
  | [] => .ok 0
  | k :: ks =>
    match c (getProp h parent k) with
    | .ok n =>
      match specCountKids c h parent ks with
      | .ok m => .ok (n + m)
      | .thrown m => .thrown m
      | .fuelOut => .fuelOut
    | .thrown m => .thrown m
    | .fuelOut => .fuelOut

/-- Spec-side node count: one for this occurrence, plus the counts of
the children when the value is composite and not already among the
ancestor references. -/
def specVisitCount (h : Heap) : Nat → List JSVal → JSVal → TRes Nat
  | 0, _, _ => .fuelOut
  | Nat.succ fuel, anc, v =>
    if isPureObj h v then
      if (anc.find? (fun w => w == v)).isSome then .ok 1
      else
        match specCountKids (specVisitCount h fuel (anc ++ [v])) h v
          (objectKeys h v) with
        | .ok n => .ok (1 + n)
        | .thrown m => .thrown m
        | .fuelOut => .fuelOut
    else .ok 1

/-- For a composite current node with a fresh key snapshot,
`updateState` captures the node's own keys. -/
theorem calcState_keys_pure {h : Heap} {n : JSVal} (ps : List Frame)
    (v : JSVal) (hn : isPureObj h n = true) :
    (calcState h ps n v { keys := none, isLeaf := true, circ := none }).keys =
      some (objectKeys h n) := by
  simp [calcState, hn]

/-- When the current node still equals the original, the second
`updateState` keeps the snapshot. -/
theorem calcState_keys_same {h : Heap} {v : JSVal} (ps : List Frame)
    {us : USt} {ks : List Key} (hn : isPureObj h v = true)
    (husk : us.keys = some ks) :
    (calcState h ps v v us).keys = some ks := by
  simp [calcState, hn, husk]

/-- The pure-observer walk property for one child list: the loop
preserves heap, path, ancestor stack and liveness, produces no hook
events, visits only strictly deeper non-root paths, and its visit
count is the spec-side children sum. -/
theorem obsKids
    {w : WSt → JSVal → TRes (WSt × JSVal)}
    {cnt : Heap → List JSVal → JSVal → TRes Nat}
    (hw : ∀ a b c d, a.alive = true → w a b = .ok (c, d) →
      d = b ∧ c.heap = a.heap ∧ c.path = a.path ∧ c.parents = a.parents ∧
      c.alive = true ∧
      ∃ diff, c.trace = a.trace ++ diff ∧ hooksIn diff = [] ∧
        (∃ leafB circP tailVis, visitsIn diff =
            Ev.visit a.path b b a.path.isEmpty leafB circP :: tailVis ∧
          ∀ e ∈ tailVis, a.path.length < e.vpath.length ∧
            e.visRoot = false) ∧
        cnt a.heap (a.parents.map Frame.node_) b = .ok (visitsIn diff).length)
    (fr : Frame) :
    ∀ (ks : List Key) (st st' : WSt), st.alive = true →
      childrenLoop w false fr false false st ks = .ok st' →
      st'.heap = st.heap ∧ st'.path = st.path ∧ st'.parents = st.parents ∧
      st'.alive = true ∧
      ∃ diff, st'.trace = st.trace ++ diff ∧ hooksIn diff = [] ∧
        (∀ e ∈ visitsIn diff, st.path.length < e.vpath.length ∧
          e.visRoot = false) ∧
        specCountKids (fun u => cnt st.heap (st.parents.map Frame.node_) u)
          st.heap fr.node ks = .ok (visitsIn diff).length
  | [], st, st', ha, h => by
    cases h
    exact ⟨rfl, rfl, rfl, ha, [], by simp, by simp [hooksIn], by simp [visitsIn],
      by simp [specCountKids, visitsIn]⟩
  | k :: ks, st, st', ha, h => by
    simp only [childrenLoop, Bool.false_and, Bool.false_eq_true, if_false] at h
    split at h
    case h_1 st3 childNode heq =>
      obtain ⟨hv, hheap3, hpath3, hpar3, hal3, diff1, htr1, hhk1,
        ⟨leafB, circP, tailVis, hvis1, htail1⟩, hcnt1⟩ :=
        hw _ _ _ _ (by exact ha) heq
      obtain ⟨hheap', hpath', hpar', hal', diff2, htr2, hhk2, hdeep2, hcnt2⟩ :=
        obsKids hw fr ks _ st' (by exact hal3) h
      dsimp only at hheap3 hpath3 hpar3 htr1 hcnt1 hheap' hpath' hpar' htr2 hcnt2 hvis1 htail1
      rw [hpath3, List.dropLast_concat] at hpath'
      rw [hheap3] at hheap' hcnt2
      rw [hpar3] at hpar' hcnt2
      refine ⟨hheap', hpath', hpar', hal', diff1 ++ diff2, ?_, ?_, ?_, ?_⟩
      · rw [htr2, htr1, List.append_assoc]
      · simp only [hooksIn, List.filter_append] at hhk1 hhk2 ⊢
        rw [hhk1, hhk2]
        rfl
      · intro e he
        simp only [visitsIn, List.filter_append, List.mem_append] at he
        rcases he with he1 | he2
        · have he1' : e ∈ visitsIn diff1 := by simpa [visitsIn] using he1
          rw [hvis1] at he1'
          rcases List.mem_cons.mp he1' with rfl | ht
          · constructor
            · simp [Ev.vpath]
            · simp [Ev.visRoot]
          · obtain ⟨hlt, hr⟩ := htail1 e ht
            refine ⟨?_, hr⟩
            have : st.path.length < (st.path ++ [k]).length := by simp
            omega
        · have he2' : e ∈ visitsIn diff2 := by simpa [visitsIn] using he2
          obtain ⟨hlt, hr⟩ := hdeep2 e he2'
          rw [hpath3, List.dropLast_concat] at hlt
          exact ⟨hlt, hr⟩
      · simp only [specCountKids]
        rw [hcnt1]
        rw [hcnt2]
        simp [visitsIn, List.filter_append]
    case h_2 => cases h
    case h_3 => cases h

/-- The pure-observer walk (the one driving `paths`, `nodes` and
`reduce`): it changes nothing (heap, path, stack, liveness), returns
the node itself, fires no hooks, visits this node first (at its path,
with the root flag) and deeper non-root paths afterwards, and its
visit count is exactly the spec-side count of the root plus every
non-circular descendant, at equal fuel. -/
theorem obsWalk :
    ∀ {fuel : Nat} {st : WSt} {v : JSVal} {st2 : WSt} {v2 : JSVal},
      st.alive = true →
      walkerF false obsCb fuel st v = .ok (st2, v2) →
      v2 = v ∧ st2.heap = st.heap ∧ st2.path = st.path ∧
      st2.parents = st.parents ∧ st2.alive = true ∧
      ∃ diff, st2.trace = st.trace ++ diff ∧ hooksIn diff = [] ∧
        (∃ leafB circP tailVis, visitsIn diff =
            Ev.visit st.path v v st.path.isEmpty leafB circP :: tailVis ∧
          ∀ e ∈ tailVis, st.path.length < e.vpath.length ∧
            e.visRoot = false) ∧
        specVisitCount st.heap fuel (st.parents.map Frame.node_) v =
          .ok (visitsIn diff).length
  | 0, st, v, st2, v2, ha, h => by cases h
  | Nat.succ fuel, st, v, st2, v2, ha, h => by
    simp only [walkerF, obsCb, copyIf, execCmds, Bool.false_eq_true, if_false,
      Bool.true_eq_false] at h
    simp only [ha] at h
    simp only [Bool.true_eq_false, if_false] at h
    have hcomp : ((fun w : JSVal => w == v) ∘ Frame.node_) =
        (fun f : Frame => f.node_ == v) := rfl
    split at h
    case isFalse hcond =>
      simp at h
      obtain ⟨rfl, rfl⟩ := h
      refine ⟨rfl, rfl, rfl, rfl, rfl,
        [Ev.enter st.path v,
         Ev.visit st.path v v st.path.isEmpty
           (calcState st.heap st.parents v v
             { keys := none, isLeaf := true, circ := none }).isLeaf
           (Option.map (fun fr => fr.path)
             (calcState st.heap st.parents v v
               { keys := none, isLeaf := true, circ := none }).circ)],
        by simp, by simp [hooksIn, Ev.isHook, List.filter],
        ⟨(calcState st.heap st.parents v v
            { keys := none, isLeaf := true, circ := none }).isLeaf,
         Option.map (fun fr => fr.path)
           (calcState st.heap st.parents v v
             { keys := none, isLeaf := true, circ := none }).circ, [],
         by simp [visitsIn, Ev.isVisit, List.filter], by simp⟩, ?_⟩
      by_cases hp : isPureObj st.heap v = true
      · simp only [hp, Bool.true_and] at hcond
        have hcirc : ¬ (calcState st.heap st.parents v v
            { keys := none, isLeaf := true, circ := none }).circ = none := by
          simpa using hcond
        have hmap : ((st.parents.map Frame.node_).find?
            (fun w => w == v)).isSome = true := by
          rw [List.find?_map, hcomp]
          rw [calcState_circ _ _ hp] at hcirc
          cases hx : st.parents.find? (fun f => f.node_ == v) with
          | none => exact absurd hx hcirc
          | some fr => simp
        simp only [specVisitCount, hp, if_true, hmap]
        simp [visitsIn, Ev.isVisit, List.filter]
      · have hp' : isPureObj st.heap v = false := by simpa using hp
        simp [specVisitCount, hp', visitsIn, Ev.isVisit, List.filter]
    case isTrue hcond =>
      simp only [Bool.and_eq_true] at hcond
      obtain ⟨hp, hcne⟩ := hcond
      have hkeys : (calcState st.heap
          (st.parents ++ [{ node := v, node_ := v, path := st.path,
                            key := st.path.getLast? }]) v v
          (calcState st.heap st.parents v v
            { keys := none, isLeaf := true, circ := none })).keys =
          some (objectKeys st.heap v) :=
        calcState_keys_same _ hp (calcState_keys_pure _ _ hp)
      rw [hkeys] at h
      simp only [Option.getD_some] at h
      split at h
      case h_1 => cases h
      case h_2 => cases h
      case h_3 stK heqK =>
        have hw : ∀ a b c d, a.alive = true →
            walkerF false obsCb fuel a b = .ok (c, d) →
            d = b ∧ c.heap = a.heap ∧ c.path = a.path ∧
            c.parents = a.parents ∧ c.alive = true ∧
            ∃ diff, c.trace = a.trace ++ diff ∧ hooksIn diff = [] ∧
              (∃ leafB circP tailVis, visitsIn diff =
                  Ev.visit a.path b b a.path.isEmpty leafB circP :: tailVis ∧
                ∀ e ∈ tailVis, a.path.length < e.vpath.length ∧
                  e.visRoot = false) ∧
              specVisitCount a.heap fuel (a.parents.map Frame.node_) b =
                .ok (visitsIn diff).length :=
          fun a b c d haa hh => obsWalk haa hh
        obtain ⟨hheapK, hpathK, hparK, halK, kdiff, htrK, hhkK, hdeepK,
          hcntK⟩ := @obsKids (walkerF false obsCb fuel)
            (fun hh anc vv => specVisitCount hh fuel anc vv) hw _
            (objectKeys st.heap v) _ stK (by exact rfl) heqK
        dsimp only at hheapK hpathK hparK htrK hcntK hdeepK
        simp at h
        obtain ⟨rfl, rfl⟩ := h
        refine ⟨rfl, by simpa using hheapK, by simpa using hpathK,
          by simp [hparK, List.dropLast_concat], by simpa using halK,
          Ev.enter st.path v ::
            Ev.visit st.path v v st.path.isEmpty
              (calcState st.heap st.parents v v
                { keys := none, isLeaf := true, circ := none }).isLeaf
              (Option.map (fun fr => fr.path)
                (calcState st.heap st.parents v v
                  { keys := none, isLeaf := true, circ := none }).circ) ::
            kdiff, ?_, ?_, ?_, ?_⟩
        · rw [htrK]
          simp [List.append_assoc]
        · simp only [hooksIn, List.filter] at hhkK ⊢
          simpa [Ev.isHook] using hhkK
        · refine ⟨(calcState st.heap st.parents v v
              { keys := none, isLeaf := true, circ := none }).isLeaf,
            Option.map (fun fr => fr.path)
              (calcState st.heap st.parents v v
                { keys := none, isLeaf := true, circ := none }).circ,
            visitsIn kdiff, ?_, ?_⟩
          · simp [visitsIn, Ev.isVisit, List.filter]
          · intro e he
            exact hdeepK e he
        · have hfind : st.parents.find? (fun f => f.node_ == v) = none := by
            have hcc := calcState_circ (h := st.heap) st.parents v hp
            rw [hcc] at hcne
            simpa using hcne
          have hmap : (st.parents.map Frame.node_).find?
              (fun w => w == v) = none := by
            rw [List.find?_map, hcomp]
            simp [hfind]
          have hcntK' : specCountKids
              (specVisitCount st.heap fuel
                (st.parents.map Frame.node_ ++ [v])) st.heap v
              (objectKeys st.heap v) = .ok (visitsIn kdiff).length := by
            simpa [List.map_append] using hcntK
          simp only [specVisitCount, hp, if_true, hmap]
          simp only [Option.isSome_none, Bool.false_eq_true, if_false]
          rw [hcntK']
          simp [visitsIn, Ev.isVisit, List.filter, Nat.add_comm]

/-- Folding the reducer step over visits that are all non-root applies
the reducer to every one of them, whatever the skip flag. -/
theorem redStep_notRoot (cb : JSVal → JSVal → JSVal) (skip : Bool) :
    ∀ (l : List Ev) (acc : JSVal), (∀ e ∈ l, e.visRoot = false) →
      l.foldl (redStep cb skip) acc = (l.map Ev.vnode).foldl cb acc
  | [], _, _ => rfl
  | e :: l, acc, hall => by
    have he : e.visRoot = false := hall e (by simp)
    simp only [List.foldl_cons, List.map_cons, redStep, he, Bool.not_false,
      Bool.true_or, if_true]
    exact redStep_notRoot cb skip l _ (fun x hx => hall x (by simp [hx]))

/-- With an initial value supplied (skip off) the guard is vacuous:
every visit, the root included, feeds the reducer. -/
theorem redStep_noSkip (cb : JSVal → JSVal → JSVal) :
    ∀ (l : List Ev) (acc : JSVal),
      l.foldl (redStep cb false) acc = (l.map Ev.vnode).foldl cb acc
  | [], _ => rfl
  | e :: l, acc => by
    simp only [List.foldl_cons, List.map_cons, redStep, Bool.not_false,
      Bool.or_true, if_true]
    exact redStep_noSkip cb l _

/-- With no initial value (skip on), the root visit leaves the
accumulator alone. -/
theorem redStep_root (cb : JSVal → JSVal → JSVal) (acc : JSVal) (hd : Ev)
    (hhd : hd.visRoot = true) : redStep cb true acc hd = acc := by
  simp [redStep, hhd]

/-- C7 (confirmed).  For every tree and pure reducer: the observer walk
behind `reduce` visits the root first (and only the root visit carries
the root flag); with no initial value the accumulator is seeded with
the root value itself and the reducer folds over exactly the
descendant visits — the root is excluded; with an initial value the
reducer folds over every visit, the root included; the final
accumulator is returned. -/
theorem C7_reduce (h : Heap) (t : Traverse) (fuel : Nat)
    (cb : JSVal → JSVal → JSVal) (i : JSVal) (st : WSt) (v2 : JSVal)
    (hw : walk fuel h t.value obsCb false = .ok (st, v2)) :
    ∃ leafB circP tailVis,
      visitsIn st.trace =
        Ev.visit [] t.value t.value true leafB circP :: tailVis ∧
      t.reduce h fuel cb none =
        .ok (List.foldl cb t.value (tailVis.map Ev.vnode)) ∧
      t.reduce h fuel cb (some i) =
        .ok (List.foldl cb i (t.value :: tailVis.map Ev.vnode)) := by
  cases fuel with
  | zero => cases hw
  | succ fuel =>
    obtain ⟨hv2, hheap, hpath, hpar, hal, diff, htr, hhk,
      ⟨leafB, circP, tailVis, hvis, htail⟩, hcnt⟩ := obsWalk rfl hw
    have htr0 : st.trace = diff := by simpa [initSt] using htr
    refine ⟨leafB, circP, tailVis, ?_, ?_, ?_⟩
    · rw [htr0]
      simpa [initSt] using hvis
    · unfold Traverse.reduce
      rw [hw]
      simp only [Option.isNone_none]
      rw [htr0]
      rw [show visitsIn diff =
          Ev.visit [] t.value t.value true leafB circP :: tailVis from by
        simpa [initSt] using hvis]
      rw [List.foldl_cons,
        redStep_root cb t.value (Ev.visit [] t.value t.value true leafB circP)
          rfl,
        redStep_notRoot cb true tailVis t.value
          (fun e he => (htail e he).2)]
    · unfold Traverse.reduce
      rw [hw]
      simp only [Option.isNone_some]
      rw [htr0]
      rw [show visitsIn diff =
          Ev.visit [] t.value t.value true leafB circP :: tailVis from by
        simpa [initSt] using hvis]
      rw [redStep_noSkip cb]
      simp only [List.map_cons]
      rfl

/-- C9 (confirmed).  `paths()` and `nodes()` each run one observer
walk; on success they return lists of equal length, and that length is
the spec-side count of the root plus every non-circular descendant
(each occurrence reached before circularity cuts its subtree off). -/
theorem C9_paths_nodes (h : Heap) (t : Traverse) (fuel : Nat)
    (ps : List (List Key)) (ns : List JSVal)
    (hp : t.paths h fuel = .ok ps) (hn : t.nodes h fuel = .ok ns) :
    ps.length = ns.length ∧
    specVisitCount h fuel [] t.value = .ok ps.length := by
  unfold Traverse.paths at hp
  unfold Traverse.nodes at hn
  cases hw : walk fuel h t.value obsCb false with
  | thrown m => rw [hw] at hp; cases hp
  | fuelOut => rw [hw] at hp; cases hp
  | ok r =>
    obtain ⟨st, v2⟩ := r
    rw [hw] at hp hn
    cases hp
    cases hn
    cases fuel with
    | zero => cases hw
    | succ fuel =>
      obtain ⟨hv2, hheap, hpath, hpar, hal, diff, htr, hhk, hhead, hcnt⟩ :=
        obsWalk rfl hw
      have htr0 : st.trace = diff := by simpa [initSt] using htr
      constructor
      · simp
      · rw [htr0]
        simpa [initSt] using hcnt

/-- C7 witness: reducing the scalar tree `7` with the projection
reducer returns 7 both unseeded and seeded. -/
theorem C7_reduce_witness :
    Traverse.reduce ⟨JSVal.num 7⟩ [] 1 (fun _ x => x) none =
      .ok (.num 7) ∧
    Traverse.reduce ⟨JSVal.num 7⟩ [] 1 (fun _ x => x)
      (some (.num 0)) = .ok (.num 7) := by
  obtain ⟨lb, cp, tailVis, hvis, h1, h2⟩ :=
    C7_reduce [] ⟨JSVal.num 7⟩ 1 (fun _ x => x) (.num 0)
      { heap := [], path := [], parents := [], alive := true,
        trace := [Ev.enter [] (JSVal.num 7),
          Ev.visit [] (JSVal.num 7) (JSVal.num 7) true true none] }
      (.num 7) rfl
  simp [visitsIn, Ev.isVisit, List.filter] at hvis
  obtain ⟨-, htl⟩ := hvis
  subst htl
  exact ⟨by rw [h1]; rfl, by rw [h2]; rfl⟩

/-- C9 witness: on the date tree the spec-side visit count is 4, the
common length of `paths()` and `nodes()`. -/
theorem C9_paths_nodes_witness :
    specVisitCount dateHeap 3 [] (JSVal.ref 0) = .ok 4 := by
  have h := C9_paths_nodes dateHeap ⟨JSVal.ref 0⟩ 3
    [[], [Key.fld "x"], [Key.fld "y"], [Key.fld "z"]]
    [JSVal.ref 0, JSVal.ref 1, JSVal.num 10, JSVal.num 5] rfl rfl
  exact h.2

/-! ### The copy-on-write frame property (`map`) -/

/-- A value that cannot alias any of the first `n0` heap cells: if it
is a reference at all, it points at or above `n0`. -/
def RefSafe (n0 : Nat) (x : JSVal) : Prop := ∀ a, x = .ref a → n0 ≤ a

/-- One heap extends another over a protected prefix: it is at least as
long and agrees on every cell below `n0`. -/
def HeapExt (n0 : Nat) (h h' : Heap) : Prop :=
  h.length ≤ h'.length ∧ ∀ a, a < n0 → h'[a]? = h[a]?

theorem HeapExt.refl' {n0 : Nat} {h : Heap} : HeapExt n0 h h :=
  ⟨Nat.le_refl _, fun _ _ => rfl⟩

theorem HeapExt.trans' {n0 : Nat} {h1 h2 h3 : Heap}
    (a : HeapExt n0 h1 h2) (b : HeapExt n0 h2 h3) : HeapExt n0 h1 h3 :=
  ⟨a.1.trans b.1, fun x hx => (b.2 x hx).trans (a.2 x hx)⟩

/-- A callback all of whose injected values (`update` arguments and
return values) are `RefSafe`: it never hands the walk a reference to a
pre-existing cell. -/
def CbSafe (n0 : Nat) (cb : Callback) : Prop :=
  ∀ view : StateView,
    (∀ x s, Cmd.update x s ∈ (cb view).cmds → RefSafe n0 x) ∧
    (∀ x, (cb view).ret = some x → RefSafe n0 x)

/-- Rewriting a cell at a protected address preserves the prefix. -/
theorem setCell_frame {n0 a : Nat} (h : Heap) (c : Cell) (ha : n0 ≤ a) :
    (h.setCell a c).length = h.length ∧
    ∀ b, b < n0 → (h.setCell a c)[b]? = h[b]? :=
  ⟨List.length_set .., fun b hb =>
    h.getElem?_set_ne (Nat.ne_of_gt (Nat.lt_of_lt_of_le hb ha))⟩

/-- A property write through a `RefSafe` target never touches a
protected cell. -/
theorem setProp_frame {n0 : Nat} {v : JSVal} (h : Heap) (k : Key)
    (x : JSVal) (hv : RefSafe n0 v) :
    (setProp h v k x).length = h.length ∧
    ∀ b, b < n0 → (setProp h v k x)[b]? = h[b]? := by
  match v with
  | .undef | .null | .bool _ | .num _ | .str _ =>
    exact ⟨rfl, fun _ _ => rfl⟩
  | .ref a =>
    have ha : n0 ≤ a := hv a rfl
    have hm : setProp h (.ref a) k x =
        match h.cell a, k with
        | some (.record fs), .fld s => h.setCell a (.record (setFields fs s x))
        | some (.arr es), .idx i => h.setCell a (.arr (setElems es i x))
        | _, _ => h := rfl
    rw [hm]
    split
    all_goals first
      | exact setCell_frame h _ ha
      | exact ⟨rfl, fun _ _ => rfl⟩

/-- A key deletion through a `RefSafe` target never touches a
protected cell. -/
theorem deleteProp_frame {n0 : Nat} {v : JSVal} (h : Heap) (k : Key)
    (hv : RefSafe n0 v) :
    (deleteProp h v k).length = h.length ∧
    ∀ b, b < n0 → (deleteProp h v k)[b]? = h[b]? := by
  match v with
  | .undef | .null | .bool _ | .num _ | .str _ =>
    exact ⟨rfl, fun _ _ => rfl⟩
  | .ref a =>
    have ha : n0 ≤ a := hv a rfl
    have hm : deleteProp h (.ref a) k =
        match h.cell a, k with
        | some (.record fs), .fld s =>
          h.setCell a (.record (fs.filter (fun p => ¬ p.1 = s)))
        | some (.arr es), .idx i =>
          h.setCell a (.arr (if i < es.length then es.set i .undef else es))
        | _, _ => h := rfl
    rw [hm]
    split
    all_goals first
      | exact setCell_frame h _ ha
      | exact ⟨rfl, fun _ _ => rfl⟩

/-- A splice through a `RefSafe` target never touches a protected
cell. -/
theorem spliceOne_frame {n0 : Nat} {v : JSVal} (h : Heap) (k : Key)
    (hv : RefSafe n0 v) :
    (spliceOne h v k).length = h.length ∧
    ∀ b, b < n0 → (spliceOne h v k)[b]? = h[b]? := by
  match v with
  | .undef | .null | .bool _ | .num _ | .str _ =>
    exact ⟨rfl, fun _ _ => rfl⟩
  | .ref a =>
    have ha : n0 ≤ a := hv a rfl
    have hm : spliceOne h (.ref a) k =
        match h.cell a, k with
        | some (.arr es), .idx i => h.setCell a (.arr (es.eraseIdx i))
        | _, _ => h := rfl
    rw [hm]
    split
    all_goals first
      | exact setCell_frame h _ ha
      | exact ⟨rfl, fun _ _ => rfl⟩

/-- The walker's copy-on-write value production only appends to the
heap: protected cells are untouched. -/
theorem copyVal_frame {n0 : Nat} (h : Heap) (v : JSVal)
    (hlen : n0 ≤ h.length) : HeapExt n0 h (copyVal h v).1 := by
  cases hp : isPureObj h v with
  | false => rw [copyVal_not_pure hp]; exact HeapExt.refl'
  | true =>
    obtain ⟨c, hc, -⟩ := copyVal_pure hp
    rw [hc]
    exact ⟨by simp, fun a ha =>
      List.getElem?_append_left (Nat.lt_of_lt_of_le ha hlen)⟩

/-- The last element of a list is a member. -/
theorem mem_of_getLast? {α : Type} {l : List α} {a : α}
    (h : l.getLast? = some a) : a ∈ l := by
  cases l with
  | nil => cases h
  | cons x xs =>
    have h2 : (x :: xs).getLast (by simp) = a := by
      rwa [List.getLast?_eq_getLast _ (by simp), Option.some_inj] at h
    rw [← h2]
    exact List.getLast_mem _

/-- One control operation under safe parents and a safe `update`
argument: protected cells and the heap length are unchanged, the
ancestor stack is unchanged, and the node either stays what it was or
becomes a callback-injected (hence `RefSafe`) value. -/
theorem execCmd_frame {n0 : Nat} {r : Bool} {k : Option Key} {st : WSt}
    {ctx : VCtx} {c : Cmd} {st2 : WSt} {ctx2 : VCtx}
    (h : execCmd r k st ctx c = .ok (st2, ctx2))
    (hp : ∀ fr ∈ st.parents, RefSafe n0 fr.node)
    (hc : ∀ x s, c = .update x s → RefSafe n0 x) :
    st2.heap.length = st.heap.length ∧
    (∀ a, a < n0 → st2.heap[a]? = st.heap[a]?) ∧
    st2.parents = st.parents ∧
    (ctx2.node = ctx.node ∨ RefSafe n0 ctx2.node) := by
  cases c with
  | update x s =>
    have hx : RefSafe n0 x := hc x s rfl
    simp only [execCmd] at h
    split at h
    · cases h
      exact ⟨rfl, fun _ _ => rfl, rfl, Or.inr hx⟩
    · split at h
      case h_1 => cases h
      case h_2 fr hfr =>
        have hfrs : RefSafe n0 fr.node := hp fr (mem_of_getLast? hfr)
        cases k with
        | none =>
          cases h
          exact ⟨rfl, fun _ _ => rfl, rfl, Or.inr hx⟩
        | some kk =>
          cases h
          obtain ⟨h1, h2⟩ := setProp_frame st.heap kk x hfrs
          exact ⟨h1, h2, rfl, Or.inr hx⟩
  | del s =>
    simp only [execCmd] at h
    split at h
    case h_1 => cases h
    case h_2 fr hfr =>
      have hfrs : RefSafe n0 fr.node := hp fr (mem_of_getLast? hfr)
      cases k with
      | none =>
        cases h
        exact ⟨rfl, fun _ _ => rfl, rfl, Or.inl rfl⟩
      | some kk =>
        cases h
        obtain ⟨h1, h2⟩ := deleteProp_frame st.heap kk hfrs
        exact ⟨h1, h2, rfl, Or.inl rfl⟩
  | remove s =>
    simp only [execCmd] at h
    split at h
    case h_1 =>
      cases h
      exact ⟨rfl, fun _ _ => rfl, rfl, Or.inl rfl⟩
    case h_2 fr hfr =>
      have hfrs : RefSafe n0 fr.node := hp fr (mem_of_getLast? hfr)
      cases h
      constructor
      · split
        · cases k with
          | none => rfl
          | some kk => exact (spliceOne_frame st.heap kk hfrs).1
        · cases k with
          | none => rfl
          | some kk => exact (deleteProp_frame st.heap kk hfrs).1
      constructor
      · split
        · cases k with
          | none => exact fun _ _ => rfl
          | some kk => exact (spliceOne_frame st.heap kk hfrs).2
        · cases k with
          | none => exact fun _ _ => rfl
          | some kk => exact (deleteProp_frame st.heap kk hfrs).2
      · exact ⟨rfl, Or.inl rfl⟩
  | stop =>
    cases h
    exact ⟨rfl, fun _ _ => rfl, rfl, Or.inl rfl⟩
  | block =>
    cases h
    exact ⟨rfl, fun _ _ => rfl, rfl, Or.inl rfl⟩
  | before =>
    cases h
    exact ⟨rfl, fun _ _ => rfl, rfl, Or.inl rfl⟩
  | after =>
    cases h
    exact ⟨rfl, fun _ _ => rfl, rfl, Or.inl rfl⟩
  | pre =>
    cases h
    exact ⟨rfl, fun _ _ => rfl, rfl, Or.inl rfl⟩
  | post =>
    cases h
    exact ⟨rfl, fun _ _ => rfl, rfl, Or.inl rfl⟩

/-- A command list under safe parents and safe `update` arguments. -/
theorem execCmds_frame {n0 : Nat} :
    ∀ {cs : List Cmd} {r : Bool} {k : Option Key} {st : WSt} {ctx : VCtx}
      {st2 : WSt} {ctx2 : VCtx},
      execCmds r k st ctx cs = .ok (st2, ctx2) →
      (∀ fr ∈ st.parents, RefSafe n0 fr.node) →
      (∀ x s, Cmd.update x s ∈ cs → RefSafe n0 x) →
      st2.heap.length = st.heap.length ∧
      (∀ a, a < n0 → st2.heap[a]? = st.heap[a]?) ∧
      st2.parents = st.parents ∧
      (ctx2.node = ctx.node ∨ RefSafe n0 ctx2.node)
  | [], _, _, _, _, _, _, h, _, _ => by
    cases h
    exact ⟨rfl, fun _ _ => rfl, rfl, Or.inl rfl⟩
  | c :: cs, r, k, st, ctx, st2, ctx2, h, hp, hcs => by
    simp only [execCmds] at h
    split at h
    case h_1 stm ctxm heq =>
      obtain ⟨e1, e2, e3, e4⟩ := execCmd_frame heq hp
        (fun x s hxs => hcs x s (by rw [hxs]; exact List.mem_cons_self ..))
      obtain ⟨g1, g2, g3, g4⟩ := execCmds_frame h
        (by rw [e3]; exact hp)
        (fun x s hxs => hcs x s (List.mem_cons_of_mem _ hxs))
      refine ⟨g1.trans e1, fun a ha => (g2 a ha).trans (e2 a ha),
        g3.trans e3, ?_⟩
      rcases g4 with g4 | g4
      · rw [g4]; exact e4
      · exact Or.inr g4
    case h_2 => cases h
    case h_3 => cases h

/-- Compositeness of a reference depends only on its cell. -/
theorem isPureObj_congr {h h' : Heap} {a : Nat} (he : h'[a]? = h[a]?) :
    isPureObj h' (.ref a) = isPureObj h (.ref a) := by
  simp only [isPureObj, Heap.cell, he]

/-- The children loop in copy-on-write mode, under a `RefSafe` frame
and safe parents, preserves protected cells and the ancestor stack,
provided each child visit does. -/
theorem childrenLoop_frame {n0 : Nat}
    {w : WSt → JSVal → TRes (WSt × JSVal)}
    (hw : ∀ st v st' v', w st v = .ok (st', v') →
      n0 ≤ st.heap.length →
      (∀ fr ∈ st.parents, RefSafe n0 fr.node) →
      HeapExt n0 st.heap st'.heap ∧ st'.parents = st.parents)
    {fr : Frame} (hfr : RefSafe n0 fr.node) {p q : Bool} :
    ∀ {ks : List Key} {st st' : WSt},
      childrenLoop w true fr p q st ks = .ok st' →
      n0 ≤ st.heap.length →
      (∀ f ∈ st.parents, RefSafe n0 f.node) →
      HeapExt n0 st.heap st'.heap ∧ st'.parents = st.parents
  | [], st, st', h, _, _ => by
    cases h
    exact ⟨HeapExt.refl', rfl⟩
  | k :: ks, st, st', h, hlen, hps => by
    simp only [childrenLoop] at h
    split at h
    case h_1 st3 childNode heq =>
      by_cases hpb : p = true <;> by_cases hqb : q = true <;>
        by_cases hio : (true && hasOwnProperty st3.heap fr.node k) = true <;>
        simp only [hpb, hqb, hio, if_true, if_false, Bool.false_eq_true,
          eq_self_iff_true] at h heq <;>
        obtain ⟨hext1, hpar1⟩ := hw _ _ _ _ heq (by exact hlen) (by exact hps) <;>
        have hps2 : ∀ f ∈ st3.parents, RefSafe n0 f.node :=
          fun f hf => hps f (by exact hpar1 ▸ hf) <;>
        have hlen3 : n0 ≤ st3.heap.length := Nat.le_trans hlen hext1.1 <;>
        first
          | (obtain ⟨hsp1, hsp2⟩ := setProp_frame st3.heap k childNode hfr
             have hlen2 : n0 ≤ (setProp st3.heap fr.node k childNode).length :=
               Nat.le_trans hlen3 (Nat.le_of_eq hsp1.symm)
             obtain ⟨hext2, hpar2⟩ :=
               childrenLoop_frame hw hfr h (by exact hlen2) (by exact hps2)
             exact ⟨(hext1.trans' ⟨Nat.le_of_eq hsp1.symm, hsp2⟩).trans' hext2,
               hpar2.trans hpar1⟩)
          | (obtain ⟨hext2, hpar2⟩ :=
               childrenLoop_frame hw hfr h (by exact hlen3) (by exact hps2)
             exact ⟨hext1.trans' hext2, hpar2.trans hpar1⟩)
    case h_2 => cases h
    case h_3 => cases h

/-- The copy-on-write walker under a safe callback: protected cells
(everything that existed before the walk) are never written, the
ancestor stack is restored, and the produced value is either the
untouched non-composite input or a value that cannot alias a protected
cell. -/
theorem walkerF_frame {n0 : Nat} {cb : Callback} (hcb : CbSafe n0 cb) :
    ∀ {fuel : Nat} {st0 : WSt} {v : JSVal} {stF : WSt} {v2 : JSVal},
      walkerF true cb fuel st0 v = .ok (stF, v2) →
      n0 ≤ st0.heap.length →
      (∀ fr ∈ st0.parents, RefSafe n0 fr.node) →
      HeapExt n0 st0.heap stF.heap ∧ stF.parents = st0.parents ∧
      ((v2 = v ∧ isPureObj st0.heap v = false) ∨ RefSafe n0 v2)
  | 0, st0, v, stF, v2, h, _, _ => by cases h
  | Nat.succ fuel, st0, v, stF, v2, h, hlen, hps => by
    have hcopy : HeapExt n0 st0.heap (copyIf true st0.heap v).1 := by
      rw [show copyIf true st0.heap v = copyVal st0.heap v from rfl]
      exact copyVal_frame st0.heap v hlen
    have hnode0 : (isPureObj st0.heap v = false ∧ (copyIf true st0.heap v).2 = v)
        ∨ RefSafe n0 (copyIf true st0.heap v).2 := by
      cases hpv : isPureObj st0.heap v with
      | false =>
        rw [show copyIf true st0.heap v = copyVal st0.heap v from rfl,
          copyVal_not_pure hpv]
        exact Or.inl ⟨rfl, rfl⟩
      | true =>
        obtain ⟨c, hc, -⟩ := copyVal_pure hpv
        rw [show copyIf true st0.heap v = copyVal st0.heap v from rfl, hc]
        refine Or.inr ?_
        intro b hb
        cases hb
        exact hlen
    simp only [walkerF] at h
    split at h
    case isTrue =>
      cases h
      refine ⟨hcopy, rfl, ?_⟩
      rcases hnode0 with ⟨h1, h2⟩ | h1
      · exact Or.inl ⟨h2, h1⟩
      · exact Or.inr h1
    case isFalse =>
      split at h
      case h_1 => cases h
      case h_2 => cases h
      case h_3 stA ctxA heqA =>
        obtain ⟨eA1, eA2, eA3, eA4⟩ := execCmds_frame heqA (by exact hps)
          (fun x s hxs => ((hcb _).1) x s hxs)
        split at h
        case h_1 => cases h
        case h_2 => cases h
        case h_3 stB ctxB heqB =>
          have hB : stB.heap.length = stA.heap.length ∧
              (∀ a, a < n0 → stB.heap[a]? = stA.heap[a]?) ∧
              stB.parents = stA.parents ∧
              (ctxB.node = ctxA.node ∨ RefSafe n0 ctxB.node) := by
            split at heqB
            case h_1 x hx =>
              exact execCmd_frame heqB (by rw [eA3]; exact hps)
                (fun y s hys => by
                  cases hys
                  exact (hcb _).2 _ hx)
            case h_2 =>
              cases heqB
              exact ⟨rfl, fun _ _ => rfl, rfl, Or.inl rfl⟩
          have hextB : HeapExt n0 st0.heap stB.heap :=
            (hcopy.trans' ⟨Nat.le_of_eq eA1.symm, eA2⟩).trans'
              ⟨Nat.le_of_eq hB.1.symm, hB.2.1⟩
          have hparB : stB.parents = st0.parents := by
            rw [hB.2.2.1]
            exact eA3
          have hnodeB : (ctxB.node = v ∧ isPureObj st0.heap v = false)
              ∨ RefSafe n0 ctxB.node := by
            rcases hB.2.2.2 with hbn | hbn
            · rcases eA4 with han | han
              · rw [hbn, han]
                rcases hnode0 with ⟨h1, h2⟩ | h1
                · exact Or.inl ⟨h2, h1⟩
                · exact Or.inr h1
              · rw [hbn]
                exact Or.inr han
            · exact Or.inr hbn
          have hlenB : n0 ≤ stB.heap.length := Nat.le_trans hlen hextB.1
          have hw2 : ∀ s1 w1 s2 w2,
              walkerF true cb fuel s1 w1 = .ok (s2, w2) →
              n0 ≤ s1.heap.length →
              (∀ fr ∈ s1.parents, RefSafe n0 fr.node) →
              HeapExt n0 s1.heap s2.heap ∧ s2.parents = s1.parents :=
            fun s1 w1 s2 w2 hh hl hp2 =>
              ⟨(walkerF_frame hcb hh hl hp2).1,
               (walkerF_frame hcb hh hl hp2).2.1⟩
          cases hmb : ctxB.mBefore <;> cases hkg : ctxB.keepGoing <;>
            cases hma : ctxB.mAfter <;>
            simp only [hmb, hkg, hma] at h <;> simp at h <;>
            first
              | (obtain ⟨rfl, rfl⟩ := h
                 exact ⟨hextB, hparB, hnodeB⟩)
              | (split at h
                 case isTrue hcond =>
                   have hpure : isPureObj stB.heap ctxB.node = true := by
                     exact hcond.1
                   have hsafe : RefSafe n0 ctxB.node := by
                     rcases hnodeB with ⟨hbv, hnp⟩ | hb
                     · rw [hbv] at hpure ⊢
                       cases v with
                       | ref a =>
                         by_cases hna : n0 ≤ a
                         · intro b hb2
                           cases hb2
                           exact hna
                         · exfalso
                           have hcell : stB.heap[a]? = st0.heap[a]? :=
                             hextB.2 a (Nat.lt_of_not_le hna)
                           rw [isPureObj_congr hcell, hnp] at hpure
                           cases hpure
                       | undef => simp [isPureObj] at hpure
                       | null => simp [isPureObj] at hpure
                       | bool b => simp [isPureObj] at hpure
                       | num m => simp [isPureObj] at hpure
                       | str s => simp [isPureObj] at hpure
                     · exact hb
                   split at h
                   case h_1 => cases h
                   case h_2 => cases h
                   case h_3 stD heqD =>
                     obtain ⟨hextD, hparD⟩ :=
                       childrenLoop_frame hw2 (by exact hsafe) heqD
                         (by exact hlenB)
                         (by
                           intro f hf
                           rcases List.mem_append.mp hf with hf | hf
                           · exact hps f (by exact hparB ▸ hf)
                           · rcases List.mem_singleton.mp hf with rfl
                             exact hsafe)
                     simp at h
                     obtain ⟨rfl, rfl⟩ := h
                     refine ⟨hextB.trans' hextD, ?_, hnodeB⟩
                     show stD.parents.dropLast = st0.parents
                     rw [hparD]
                     show (stB.parents ++ [_]).dropLast = st0.parents
                     rw [List.dropLast_concat]
                     exact hparB
                 case isFalse =>
                   simp at h
                   obtain ⟨rfl, rfl⟩ := h
                   exact ⟨hextB, hparB, hnodeB⟩)

/-- C4 (corrected).  For a callback that never injects a reference to a
pre-existing cell (`CbSafe`): `map` runs the walk in copy-on-write mode
and leaves every pre-existing heap cell — the original root value and
everything reachable from it — unchanged, the facade still holds the
same root afterwards, and when the root is composite the returned root
is distinct from the original reference.  The claim's unconditional
"for every callback" form is refuted by `C4_counterexample`: a callback
that feeds a pre-existing reference back through `update` re-aims the
walk's child write-backs at the original object and mutates it. -/
theorem C4_map_frame (cb : Callback) (h : Heap) (t : Traverse)
    (fuel : Nat) (h2 : Heap) (v2 : JSVal) (t2 : Traverse)
    (hcb : CbSafe h.length cb)
    (hres : t.map h fuel cb = .ok (h2, v2, t2)) :
    (∀ a, a < h.length → h2[a]? = h[a]?) ∧ t2 = t ∧
    (isPureObj h t.value = true → v2 ≠ t.value) := by
  unfold Traverse.map at hres
  cases hw : walk fuel h t.value cb true with
  | thrown m => rw [hw] at hres; cases hres
  | fuelOut => rw [hw] at hres; cases hres
  | ok r =>
    obtain ⟨st, v⟩ := r
    rw [hw] at hres
    cases hres
    obtain ⟨hext, hpar, hval⟩ := walkerF_frame hcb hw (Nat.le_refl _)
      (by intro fr hfr; exact absurd hfr (List.not_mem_nil _))
    refine ⟨fun a ha => hext.2 a ha, rfl, ?_⟩
    intro hpure
    rcases hval with ⟨hveq, hfalse⟩ | hsafe
    · exfalso
      exact absurd (hpure.symm.trans hfalse) (by simp)
    · intro heq
      cases hv : t.value with
      | ref a =>
        have hge : h.length ≤ a := hsafe a (heq.trans hv)
        have hnone : h[a]? = none := List.getElem?_eq_none hge
        rw [hv] at hpure
        simp [isPureObj, Heap.cell, hnone] at hpure
      | undef => rw [hv] at hpure; simp [isPureObj] at hpure
      | null => rw [hv] at hpure; simp [isPureObj] at hpure
      | bool b => rw [hv] at hpure; simp [isPureObj] at hpure
      | num m => rw [hv] at hpure; simp [isPureObj] at hpure
      | str s => rw [hv] at hpure; simp [isPureObj] at hpure

/-- C4 counterexample: mapping `cbEvil` — whose root callback invokes
`this.update(this.node_)`, handing the walk the original root
reference — over `{a: {b: 1}}` succeeds but mutates the pre-existing
root cell (its `a` field is re-aimed at the fresh copy, address 3) and
even returns the original root reference rather than a new root. -/
theorem C4_counterexample :
    Traverse.map ⟨JSVal.ref 0⟩ evilHeap 3 cbEvil =
      .ok ([Cell.record [("a", JSVal.ref 3)], Cell.record [("b", JSVal.num 1)],
            Cell.record [("a", JSVal.ref 1)], Cell.record [("b", JSVal.num 1)]],
           JSVal.ref 0, ⟨JSVal.ref 0⟩) ∧
    ([Cell.record [("a", JSVal.ref 3)], Cell.record [("b", JSVal.num 1)],
      Cell.record [("a", JSVal.ref 1)],
      Cell.record [("b", JSVal.num 1)]] : Heap)[0]? ≠ evilHeap[0]? :=
  ⟨rfl, by decide⟩

/-- C4 witness: `cb100` (which only ever returns fresh numbers) is a
safe callback on the date tree, and `map`ping it leaves both
pre-existing cells of `dateHeap` unchanged while producing a new root
reference. -/
theorem C4_map_frame_witness :
    (∀ a, a < dateHeap.length → dateMapHeap[a]? = dateHeap[a]?) ∧
    (JSVal.ref 2 : JSVal) ≠ JSVal.ref 0 := by
  have hcb : CbSafe dateHeap.length cb100 := by
    intro view
    constructor
    · intro x s hxs
      cases hnode : view.node <;> simp [cb100, hnode] at hxs
    · intro x hx
      cases hnode : view.node <;> simp [cb100, hnode] at hx
      subst hx
      intro b hb
      cases hb
  obtain ⟨h1, h2, h3⟩ := C4_map_frame cb100 dateHeap ⟨JSVal.ref 0⟩ 3
    dateMapHeap (JSVal.ref 2) ⟨JSVal.ref 0⟩ hcb rfl
  exact ⟨h1, h3 rfl⟩
